import Mathlib

/-!
# Verification of the `@fizzwiz/sorted` collection library

Shallow embedding of the repository's core data structures and operations:

* `SortedArray` (src/unnamed/part_006): a comparator-ordered list with
  binary-search insertion/removal (`logSearch`).
* `ArrayQueue` (src/src/main/queue/ArrayQueue.js): an insertion-ordered list;
  only the behaviour used by the classifier (append, forward iteration,
  reversed view) is needed here and is captured by plain lists.
* `Classifier` (src/src/main/queue/Classifier.js): a hierarchical prefix-tree
  multimap with per-node occurrence counters `nin`/`nout`, sorted child keys,
  a key-to-child map, and a per-node equivalence-class container.
* `TrueSet` (src/unnamed/part_005): a multiset adaptor delegating to a
  `Classifier` through a representation function.

Modelling conventions:

* JavaScript numeric counters (`nin`, `nout`, the `xTimes` arguments) are
  modelled as `Int`.  The source stores JS numbers, which also admit
  fractional values; the specification (§9) flags fractional counts as an
  implementation artifact and every claim under scrutiny uses integer counts.
  The unbounded default `xTimes = Infinity` of `Classifier.remove` is
  modelled as `Option Int` with `none` standing for `Infinity`
  (so `Math.min(Infinity, nin) = nin`).
* A JS `Map` is modelled as an association list in insertion order; a JS map
  never holds two entries with the same key, so lookup/delete/replace act on
  the first matching entry.
* The per-node `sorter` function is consulted by the source exactly once per
  node; its result may depend only on data fixed at node creation (the spec
  requires referential stability given the node's depth), so it is modelled
  as a function of the node depth.
* The lazy `Each` combinators from the external `@fizzwiz/fluent` library
  (`Each.as`, `Each.else`, `sthen`) only convert between iterables here;
  per the specification's description of `get`, they are modelled as list
  `map`/`flatten` operations.
-/

/-- Flatten-map over a list (the eager model of iterating a lazy sequence of
sequences, as `Classifier.get` does via `sthen`). -/
def lflat {β γ : Type} (f : β → List γ) : List β → List γ
  | [] => []
  | x :: xs => f x ++ lflat f xs

/-- JS `array.splice(i, 0, v)`: insert `v` at index `i`; an index beyond the
end of the array appends at the end. -/
def insertAt {β : Type} : List β → Nat → β → List β
  | l, 0, v => v :: l
  | [], _ + 1, v => [v]
  | x :: xs, n + 1, v => x :: insertAt xs n v

/-- The loop body of `SortedArray.logSearch`, made structural on a fuel
argument.  With `fuel ≥ stop - start` the fuel never runs out before the
loop condition `start < stop` fails, so `logSearch` below is exactly the
source's binary search.  `array.get? mid` is `none` only when `mid` is out
of bounds, which cannot happen for in-range `[start, stop)` windows. -/
def logSearchGo {β : Type} (item : β) (array : List β) (comparator : β → β → Int) :
    Nat → Nat → Nat → Nat × Option β
  | 0, start, _ => (start, none)
  | fuel + 1, start, stop =>
    if start < stop then
      let mid := (start + stop) / 2
      match array.get? mid with
      | none => (start, none)
      | some x =>
        let cmp := comparator x item
        if cmp = 0 then (mid, some x)
        else if cmp < 0 then logSearchGo item array comparator fuel (mid + 1) stop
        else logSearchGo item array comparator fuel start mid
    else (start, none)

/-- `SortedArray.logSearch(item, array, comparator, start, end)`: binary
search over a sorted array, returning a pair `(index, result)` where
`result` is an element comparing equal to `item` (or `none`), and `index`
is the found position, or the insertion position keeping the array sorted. -/
def logSearch {β : Type} (item : β) (array : List β) (comparator : β → β → Int)
    (start stop : Nat) : Nat × Option β :=
  logSearchGo item array comparator (stop - start) start stop

/-- `SortedArray.add` on the backing items list: insert in sorted position
if no equivalent item exists; returns whether the item was added. -/
def saAdd {β : Type} (comparator : β → β → Int) (items : List β) (item : β) :
    Bool × List β :=
  match logSearch item items comparator 0 items.length with
  | (index, none) => (true, insertAt items index item)
  | (_, some _) => (false, items)

/-- `SortedArray.remove` on the backing items list: remove an equivalent
item if present; returns whether an item was removed. -/
def saRemove {β : Type} (comparator : β → β → Int) (items : List β) (item : β) :
    Bool × List β :=
  match logSearch item items comparator 0 items.length with
  | (index, some _) => (true, items.eraseIdx index)
  | (_, none) => (false, items)

/-- `SortedArray.has` on the backing items list. -/
def saHas {β : Type} (comparator : β → β → Int) (items : List β) (item : β) : Bool :=
  match logSearch item items comparator 0 items.length with
  | (_, some _) => true
  | (_, none) => false

/-- A comparator-ordered container (`SortedArray` in src/unnamed/part_006):
a comparator together with its backing array. -/
structure SortedArray (β : Type) where
  comparator : β → β → Int
  items : List β

/-- `SortedArray.add(item)`. -/
def SortedArray.add {β : Type} (sa : SortedArray β) (item : β) : Bool × SortedArray β :=
  let (got, items) := saAdd sa.comparator sa.items item
  (got, ⟨sa.comparator, items⟩)

/-- `SortedArray.remove(item)`. -/
def SortedArray.remove {β : Type} (sa : SortedArray β) (item : β) : Bool × SortedArray β :=
  let (got, items) := saRemove sa.comparator sa.items item
  (got, ⟨sa.comparator, items⟩)

/-- `SortedArray.has(item)`. -/
def SortedArray.has {β : Type} (sa : SortedArray β) (item : β) : Bool :=
  saHas sa.comparator sa.items item

/-- The comparator contract assumed by the specification (§3): a total
preorder returning negative/zero/positive, with consistent sign flip. -/
structure IsTotalPre {β : Type} (comparator : β → β → Int) : Prop where
  total : ∀ a b, comparator a b ≤ 0 ∨ comparator b a ≤ 0
  flip : ∀ a b, comparator a b < 0 ↔ 0 < comparator b a
  letrans : ∀ a b c, comparator a b ≤ 0 → comparator b c ≤ 0 → comparator a c ≤ 0

/-- The value-container policy a node's `sorter` yields: either an item
comparator (values live in a `SortedArray`) or a FIFO/LIFO flag (values live
in an `ArrayQueue`; the source's `undefined` flag defaults to FIFO `true`). -/
inductive VPol (β : Type) : Type where
  | sorted (comparator : β → β → Int) : VPol β
  | queue (fifo : Bool) : VPol β

/-- A `sorter` function: from the node's depth, the pair
`[keyComparator, itemComparatorOrFlag]` fixed at node creation. -/
def Sorter (κ β : Type) : Type :=
  Nat → (κ → κ → Int) × VPol β

/-- A `Classifier` node (src/src/main/queue/Classifier.js): depth, the two
occurrence counters, the sorted child-key list (`sortedKeys`, backing items
of a `SortedArray` ordered by the node's key comparator), the key-to-child
map (`keyToChild`, association list in insertion order), and the node's
equivalence class (`class`, the backing items of the per-node container).
The `parent`/`key` back-references of the source only serve counter
propagation and pruning, which the operations below perform top-down. -/
inductive Classifier (κ β : Type) : Type where
  | node (depth : Nat) (nin nout : Int) (sortedKeys : List κ)
      (keyToChild : List (κ × Classifier κ β)) (cls : List β) : Classifier κ β

/-- Depth of a node (root = 0). -/
def Classifier.depth {κ β : Type} : Classifier κ β → Nat
  | .node d _ _ _ _ _ => d

/-- `nin`: occurrences terminating exactly at this node. -/
def Classifier.nin {κ β : Type} : Classifier κ β → Int
  | .node _ i _ _ _ _ => i

/-- `nout`: occurrences terminating strictly below this node. -/
def Classifier.nout {κ β : Type} : Classifier κ β → Int
  | .node _ _ o _ _ _ => o

/-- The node's `sortedKeys` backing items. -/
def Classifier.sortedKeys {κ β : Type} : Classifier κ β → List κ
  | .node _ _ _ sk _ _ => sk

/-- The node's `keyToChild` map as an association list. -/
def Classifier.keyToChild {κ β : Type} : Classifier κ β → List (κ × Classifier κ β)
  | .node _ _ _ _ ch _ => ch

/-- The node's equivalence-class items (`class`). -/
def Classifier.cls {κ β : Type} : Classifier κ β → List β
  | .node _ _ _ _ _ c => c

/-- `n()` / `size`: `nin + nout`, the occurrences in this node's subtree. -/
def Classifier.nval {κ β : Type} (c : Classifier κ β) : Int :=
  c.nin + c.nout

/-- A freshly constructed node at the given depth: zero counters, empty
containers (the constructor of the source). -/
def Classifier.fresh {κ β : Type} (d : Nat) : Classifier κ β :=
  .node d 0 0 [] [] []

/-- The root of a new classifier. -/
def Classifier.empty {κ β : Type} : Classifier κ β :=
  Classifier.fresh 0

/-- `Map.prototype.get`: first (and in a JS map, only) entry with the key. -/
def lookupChild {κ β : Type} [DecidableEq κ] :
    List (κ × Classifier κ β) → κ → Option (Classifier κ β)
  | [], _ => none
  | (k', c) :: rest, k => if k' = k then some c else lookupChild rest k

/-- `Map.prototype.delete`: drop the entry with the key. -/
def eraseChild {κ β : Type} [DecidableEq κ] :
    List (κ × Classifier κ β) → κ → List (κ × Classifier κ β)
  | [], _ => []
  | (k', c) :: rest, k => if k' = k then rest else (k', c) :: eraseChild rest k

/-- Replace the entry with the key in place (a JS map mutation of the stored
node keeps its slot in insertion order). -/
def replaceChild {κ β : Type} [DecidableEq κ] :
    List (κ × Classifier κ β) → κ → Classifier κ β → List (κ × Classifier κ β)
  | [], _, _ => []
  | (k', c) :: rest, k, c'' => if k' = k then (k, c'') :: rest else (k', c) :: replaceChild rest k c''

/-- Adding an item to a node's equivalence class: `SortedArray.add` under a
comparator policy, `ArrayQueue.add` (append, always `true`) under a flag. -/
def clsAdd {β : Type} (pol : VPol β) (items : List β) (item : β) : Bool × List β :=
  match pol with
  | .sorted comparator => saAdd comparator items item
  | .queue _ => (true, items ++ [item])

/-- `with(keys)` without creation: descend through the key sequence,
returning the final node, or `none` as soon as a child is missing. -/
def withNode {κ β : Type} [DecidableEq κ] : Classifier κ β → List κ → Option (Classifier κ β)
  | c, [] => some c
  | c, k :: ks =>
    match lookupChild c.keyToChild k with
    | none => none
    | some child => withNode child ks

/-- `has(keys)`: the path exists and its terminal node has `nin > 0`. -/
def Classifier.has {κ β : Type} [DecidableEq κ] (c : Classifier κ β) (keys : List κ) : Bool :=
  match withNode c keys with
  | none => false
  | some n => decide (0 < n.nin)

/-- The recursive engine of `Classifier.add`: descend along `keys`
(creating missing nodes when `0 < x`, as `with(keys, xTimes > 0)` does),
add `item` to the terminal node's class, add `x` to the terminal `nin` and
to every ancestor's `nout`, then prune bottom-up exactly as
`pruneIfEmpty` does: a node whose `nin` and `nout` are both zero is
detached from its parent's `keyToChild` and `sortedKeys`, and the chain
stops at the first non-empty node.  Returns `none` when the path is missing
and must not be created; otherwise `(got, updated node, prune flag)` where
the flag reports that the updated node is empty and the prune chain is
still active. -/
def addAux {κ β : Type} [DecidableEq κ] (s : Sorter κ β) :
    Classifier κ β → List κ → β → Int → Option (Bool × Classifier κ β × Bool)
  | .node d nin nout sk ch cls, [], item, x =>
    let r := clsAdd (s d).2 cls item
    some (r.1, .node d (nin + x) nout sk ch r.2, decide (nin + x = 0 ∧ nout = 0))
  | .node d nin nout sk ch cls, k :: ks, item, x =>
    let step : Option (List κ × List (κ × Classifier κ β) × Classifier κ β) :=
      match lookupChild ch k with
      | some child => some (sk, ch, child)
      | none =>
        if 0 < x then
          some ((saAdd (s d).1 sk k).2, ch ++ [(k, Classifier.fresh (d + 1))],
            Classifier.fresh (d + 1))
        else none
    match step with
    | none => none
    | some (sk0, ch0, child) =>
      match addAux s child ks item x with
      | none => none
      | some (got, child', doPrune) =>
        if doPrune then
          some (got, .node d nin (nout + x) ((saRemove (s d).1 sk0 k).2) (eraseChild ch0 k) cls,
            decide (nin = 0 ∧ nout + x = 0))
        else
          some (got, .node d nin (nout + x) sk0 (replaceChild ch0 k child') cls, false)

/-- `add(keys, item, xTimes)`: returns the source's boolean result together
with the updated tree (unchanged when the walk fails). -/
def Classifier.add {κ β : Type} [DecidableEq κ] (s : Sorter κ β) (c : Classifier κ β)
    (keys : List κ) (item : β) (x : Int) : Bool × Classifier κ β :=
  match addAux s c keys item x with
  | none => (false, c)
  | some (got, c', _) => (got, c')

/-- The recursive engine of `Classifier.remove`: descend along `keys`
without creating nodes; at the terminal node subtract
`Math.min(xTimes, nin)` from `nin` (a `none` bound is the source's default
`Infinity`), subtract the same amount from every ancestor's `nout`, and
prune bottom-up as in `addAux`.  Returns the updated node, the prune flag
and the subtracted amount. -/
def removeAux {κ β : Type} [DecidableEq κ] (s : Sorter κ β) :
    Classifier κ β → List κ → Option Int → Option (Classifier κ β × Bool × Int)
  | .node d nin nout sk ch cls, [], x =>
    let dec := match x with | none => nin | some q => min q nin
    some (.node d (nin - dec) nout sk ch cls, decide (nin - dec = 0 ∧ nout = 0), dec)
  | .node d nin nout sk ch cls, k :: ks, x =>
    match lookupChild ch k with
    | none => none
    | some child =>
      match removeAux s child ks x with
      | none => none
      | some (child', doPrune, dec) =>
        if doPrune then
          some (.node d nin (nout - dec) ((saRemove (s d).1 sk k).2) (eraseChild ch k) cls,
            decide (nin = 0 ∧ nout - dec = 0), dec)
        else
          some (.node d nin (nout - dec) sk (replaceChild ch k child') cls, false, dec)

/-- `remove(keys, xTimes)`: `false` and no mutation when the path does not
fully exist, `true` otherwise. -/
def Classifier.remove {κ β : Type} [DecidableEq κ] (s : Sorter κ β) (c : Classifier κ β)
    (keys : List κ) (x : Option Int) : Bool × Classifier κ β :=
  match removeAux s c keys x with
  | none => (false, c)
  | some (c', _, _) => (true, c')

/-- `clear()` invoked on the node reached by `keys` (the source method acts
on a node object; here the node is addressed by its path from the root):
the node's counters and containers are reset, then `pruneIfEmpty` runs from
that node — it is now empty, so it is detached from its parent, and the
chain climbs while ancestors are empty.  Ancestor counters are not
adjusted.  Returns the updated node and the prune flag. -/
def clearAux {κ β : Type} [DecidableEq κ] (s : Sorter κ β) :
    Classifier κ β → List κ → Option (Classifier κ β × Bool)
  | .node d _ _ _ _ _, [] =>
    some (.node d 0 0 [] [] [], true)
  | .node d nin nout sk ch cls, k :: ks =>
    match lookupChild ch k with
    | none => none
    | some child =>
      match clearAux s child ks with
      | none => none
      | some (child', doPrune) =>
        if doPrune then
          some (.node d nin nout ((saRemove (s d).1 sk k).2) (eraseChild ch k) cls,
            decide (nin = 0 ∧ nout = 0))
        else
          some (.node d nin nout sk (replaceChild ch k child') cls, false)

/-- `clear()` on the node at `keys`, as a whole-tree transformation. -/
def clearAt {κ β : Type} [DecidableEq κ] (s : Sorter κ β) (c : Classifier κ β)
    (keys : List κ) : Classifier κ β :=
  match clearAux s c keys with
  | none => c
  | some (c', _) => c'

mutual

/-- Number of nodes in the tree rooted at `c` (used as recursion fuel for
the traversals below; any bound on the tree height would do). -/
def Classifier.wt {κ β : Type} : Classifier κ β → Nat
  | .node _ _ _ _ ch _ => wtChildren ch + 1

/-- Total number of nodes of a child list. -/
def wtChildren {κ β : Type} : List (κ × Classifier κ β) → Nat
  | [] => 0
  | (_, c) :: rest => Classifier.wt c + wtChildren rest

end

/-- The fuelled engine of `descendants(query, first, index)`: iterate the
node's `sortedKeys` (reversed when `first = false`); a key is skipped when
`query[index]` is defined and differs, or when it has no child in
`keyToChild`; otherwise yield the child followed by its own descendants at
`index + 1`.  Fuel bounded by `Classifier.wt` makes the recursion
structural; the fuel never runs out (children weigh strictly less). -/
def descendantsF {κ β : Type} [DecidableEq κ] (first : Bool) (query : List (Option κ)) :
    Nat → Classifier κ β → Nat → List (Classifier κ β)
  | 0, _, _ => []
  | fuel + 1, c, index =>
    lflat
      (fun key =>
        if (match query.getD index none with
            | none => true
            | some mk => decide (key = mk)) then
          match lookupChild c.keyToChild key with
          | none => []
          | some child => child :: descendantsF first query fuel child (index + 1)
        else [])
      (if first then c.sortedKeys else c.sortedKeys.reverse)

/-- `descendants(query, first)` from a node (the node itself excluded). -/
def descendants {κ β : Type} [DecidableEq κ] (first : Bool) (query : List (Option κ))
    (c : Classifier κ β) : List (Classifier κ β) :=
  descendantsF first query c.wt c 0

/-- `get(query, first)`: every item of every matching node's class, in
traversal order; the class is read forward when `first = true` and through
its reversed view (`class.reverse()`) otherwise. -/
def getItems {κ β : Type} [DecidableEq κ] (first : Bool) (query : List (Option κ))
    (c : Classifier κ β) : List β :=
  lflat (fun n => if first then n.cls else n.cls.reverse) (descendants first query c)

/-- `values()`: all items of all descendants, forward traversal. -/
def valuesList {κ β : Type} [DecidableEq κ] (c : Classifier κ β) : List β :=
  lflat Classifier.cls (descendants true [] c)

/-- `peek(first)`: the first element yielded by `get([], first)`. -/
def peekItem {κ β : Type} [DecidableEq κ] (first : Bool) (c : Classifier κ β) : Option β :=
  (getItems first [] c).head?

/-- The fuelled engine of `entries()`: forward traversal; every node with
`nin > 0` contributes a `[keys, item]` pair per class item, where `keys` is
the full key path from the root. -/
def entriesF {κ β : Type} [DecidableEq κ] :
    Nat → Classifier κ β → List κ → List (List κ × β)
  | 0, _, _ => []
  | fuel + 1, c, path =>
    lflat
      (fun key =>
        match lookupChild c.keyToChild key with
        | none => []
        | some child =>
          (if 0 < child.nin then child.cls.map (fun item => (path ++ [key], item)) else []) ++
            entriesF fuel child (path ++ [key]))
      c.sortedKeys

/-- `entries()` from the root. -/
def entriesList {κ β : Type} [DecidableEq κ] (c : Classifier κ β) : List (List κ × β) :=
  entriesF c.wt c []

/-- A `TrueSet` (src/unnamed/part_005): a representation function and the
backing classifier. -/
structure TrueSet (κ β : Type) where
  repr : β → List κ
  classifier : Classifier κ β

/-- `TrueSet.add(item, xTimes)`: delegate to
`classifier.add(repr(item), item, xTimes)`; the source returns `this`,
so only the updated set is produced. -/
def TrueSet.add {κ β : Type} [DecidableEq κ] (s : Sorter κ β) (t : TrueSet κ β)
    (item : β) (x : Int) : TrueSet κ β :=
  ⟨t.repr, (Classifier.add s t.classifier (t.repr item) item x).2⟩

/-- `TrueSet.has(item)`. -/
def TrueSet.has {κ β : Type} [DecidableEq κ] (t : TrueSet κ β) (item : β) : Bool :=
  t.classifier.has (t.repr item)

/-! ## Concrete instances used by witnesses and counterexamples -/

/-- `ORDER.ASCENDING` on integers: `(a, b) => a - b`. -/
def ascInt : Int → Int → Int := fun a b => a - b

/-- `SORTER.UNIFORM(ORDER.ASCENDING, ORDER.INSERTION)`: ascending keys,
insertion-ordered classes (the classifier's default sorter). -/
def sorterIns : Sorter Int Int := fun _ => (ascInt, .queue true)

/-- `SORTER.UNIFORM(ORDER.ASCENDING, ORDER.SINGULAR)`: ascending keys,
all values equivalent inside a class. -/
def sorterSingular : Sorter Int Int := fun _ => (ascInt, .sorted (fun _ _ => 0))

/-- `SORTER.UNIFORM(ORDER.ASCENDING, ORDER.ASCENDING)`: ascending keys and
ascending sorted classes. -/
def sorterAsc : Sorter Int Int := fun _ => (ascInt, .sorted ascInt)

/-! ## Invariant predicates -/

/-- Sum of `n()` over a child list. -/
def sumN {κ β : Type} (ch : List (κ × Classifier κ β)) : Int :=
  (ch.map (fun p => p.2.nval)).sum

/-- The counter invariant of the specification: at every node,
`nout = Σ n()` over the direct children. -/
inductive GoodCounts {κ β : Type} : Classifier κ β → Prop where
  | node : ∀ (d : Nat) (nin nout : Int) (sk : List κ) (ch : List (κ × Classifier κ β))
      (cls : List β), nout = sumN ch → (∀ p ∈ ch, GoodCounts p.2) →
      GoodCounts (.node d nin nout sk ch cls)

/-- All counters in the tree are non-negative (the sane states produced by
ordinary non-negative-count usage). -/
inductive Nonneg {κ β : Type} : Classifier κ β → Prop where
  | node : ∀ (d : Nat) (nin nout : Int) (sk : List κ) (ch : List (κ × Classifier κ β))
      (cls : List β), 0 ≤ nin → 0 ≤ nout → (∀ p ∈ ch, Nonneg p.2) →
      Nonneg (.node d nin nout sk ch cls)

/-- No attached node other than the root has `nin = 0` and `nout = 0`
(the pruning invariant). -/
inductive NoEmpty {κ β : Type} : Classifier κ β → Prop where
  | node : ∀ (d : Nat) (nin nout : Int) (sk : List κ) (ch : List (κ × Classifier κ β))
      (cls : List β), (∀ p ∈ ch, ¬(p.2.nin = 0 ∧ p.2.nout = 0)) →
      (∀ p ∈ ch, NoEmpty p.2) → NoEmpty (.node d nin nout sk ch cls)

/-- Every node's child map holds pairwise-distinct keys (automatic for a
JS `Map`, stated explicitly for the association-list model). -/
inductive KeysOK {κ β : Type} : Classifier κ β → Prop where
  | node : ∀ (d : Nat) (nin nout : Int) (sk : List κ) (ch : List (κ × Classifier κ β))
      (cls : List β), (ch.map Prod.fst).Nodup → (∀ p ∈ ch, KeysOK p.2) →
      KeysOK (.node d nin nout sk ch cls)

/-! ## The multiset scenario (claim C7) -/

/-- A record with a name and an age, as in the specification's multiset
scenario. -/
structure Person where
  name : String
  age : Int
deriving DecidableEq

/-- The representation function `age`. -/
def reprAge : Person → List Int := fun p => [p.age]

/-- Bob, aged 18. -/
def bobP : Person := ⟨"Bob", 18⟩

/-- Carol, aged 18. -/
def carolP : Person := ⟨"Carol", 18⟩

/-- Ascending keys, constant-zero (singular) value comparator. -/
def sorterPersonSingular : Sorter Int Person := fun _ => (ascInt, .sorted (fun _ _ => 0))

/-- Ascending keys, insertion-order value storage. -/
def sorterPersonIns : Sorter Int Person := fun _ => (ascInt, .queue true)

/-- Every strict descendant of the node has an empty equivalence class. -/
inductive BelowEmpty {κ β : Type} : Classifier κ β → Prop where
  | node : ∀ (d : Nat) (nin nout : Int) (sk : List κ) (ch : List (κ × Classifier κ β))
      (cls : List β), (∀ p ∈ ch, p.2.cls = []) → (∀ p ∈ ch, BelowEmpty p.2) →
      BelowEmpty (.node d nin nout sk ch cls)

/-- The value-bearing nodes of the tree form an antichain: along every
branch, once a traversed node carries values, nothing below it does. -/
inductive MirrorOK {κ β : Type} : Classifier κ β → Prop where
  | node : ∀ (d : Nat) (nin nout : Int) (sk : List κ) (ch : List (κ × Classifier κ β))
      (cls : List β), (∀ p ∈ ch, p.2.cls = [] ∨ BelowEmpty p.2) →
      (∀ p ∈ ch, MirrorOK p.2) → MirrorOK (.node d nin nout sk ch cls)

/-- The two-level counterexample tree: a value at path `[0]` and another at
path `[0, 1]`. -/
def cexC1 : Classifier Int Int :=
  (Classifier.add sorterIns (Classifier.add sorterIns Classifier.empty [0] 10 1).2
    [0, 1] 20 1).2

/-- A sibling-only tree: values `[10]` under key `0` and `[20]` under
key `1`. -/
def wtreeC1 : Classifier Int Int :=
  .node 0 0 2 [0, 1] [(0, .node 1 1 0 [] [] [10]), (1, .node 1 1 0 [] [] [20])] []

/-- C9 fails on the code as stated: after add-and-remove history, a
rejected duplicate add can leave `n()` *below* the class size.  The tree
below stores three values `[1, 2, 3]` at path `[7]` with `nin = 1`
(two occurrences removed); re-adding `2` is rejected, counters grow to
`nin = 2`, yet the class still holds three values. -/
def c9tree : Classifier Int Int :=
  (Classifier.remove sorterAsc
    (Classifier.add sorterAsc
      (Classifier.add sorterAsc
        (Classifier.add sorterAsc Classifier.empty [7] 1 1).2 [7] 2 1).2 [7] 3 1).2
    [7] (some 2)).2

/-- A tree holding one value `5` at path `[7]` with one occurrence. -/
def w9tree : Classifier Int Int :=
  .node 0 0 1 [7] [(7, .node 1 1 0 [] [] [5])] []

/-- A tree with two value-bearing children under the root. -/
def w10tree : Classifier Int Int :=
  .node 0 0 3 [5, 9] [(5, .node 1 2 0 [] [] [10]), (9, .node 1 1 0 [] [] [20])] []

/-! ## Lemmas and claim theorems -/

/-! ## Basic lemmas about the walk and `remove` -/

/-- `removeAux` fails exactly when the walk (`with(keys)`) fails. -/
theorem removeAux_none_iff {κ β : Type} [DecidableEq κ] (s : Sorter κ β)
    (keys : List κ) (x : Option Int) :
    ∀ c : Classifier κ β, removeAux s c keys x = none ↔ withNode c keys = none := by
  induction keys with
  | nil =>
    intro c
    cases c with
    | node d nin nout sk ch cls => simp [removeAux, withNode]
  | cons k ks ih =>
    intro c
    cases c with
    | node d nin nout sk ch cls =>
      simp only [removeAux, withNode, Classifier.keyToChild]
      cases h : lookupChild ch k with
      | none => simp
      | some child =>
        simp only
        cases hr : removeAux s child ks x with
        | none => simpa [hr] using (ih child).mp hr
        | some r =>
          obtain ⟨c', pr, dec⟩ := r
          have : withNode child ks ≠ none := by
            intro hw
            have := (ih child).mpr hw
            simp [this] at hr
          simp only [this, iff_false]
          by_cases hpr : pr <;> simp [hpr]

/-- C8.  `Classifier.remove(keySequence, maxCount)` never throws: when the
path does not fully exist it returns `false` with the tree unchanged, and
whenever the path exists it returns `true`, regardless of whether any
counter numerically changed. -/
theorem claim_C8_remove_total {κ β : Type} [DecidableEq κ] (s : Sorter κ β)
    (c : Classifier κ β) (keys : List κ) (x : Option Int) :
    (withNode c keys = none → Classifier.remove s c keys x = (false, c)) ∧
    (withNode c keys ≠ none → (Classifier.remove s c keys x).1 = true) := by
  constructor
  · intro h
    have := (removeAux_none_iff s keys x c).mpr h
    simp [Classifier.remove, this]
  · intro h
    have hne : removeAux s c keys x ≠ none := by
      intro hn
      exact h ((removeAux_none_iff s keys x c).mp hn)
    cases hr : removeAux s c keys x with
    | none => exact absurd hr hne
    | some r => simp [Classifier.remove, hr]

/-- Witness for C8: a missing path is reported `false` and leaves the tree
untouched; an existing path (here the root, with `nin` already `0`) is
reported `true`. -/
theorem claim_C8_witness :
    withNode (Classifier.empty : Classifier Int Int) [9] = none ∧
    Classifier.remove sorterIns Classifier.empty [9] none =
      (false, Classifier.empty) ∧
    withNode (Classifier.empty : Classifier Int Int) [] ≠ none ∧
    (Classifier.remove sorterIns Classifier.empty [] none).1 = true := by
  refine ⟨rfl, ?_, by simp [withNode], ?_⟩
  · exact (claim_C8_remove_total sorterIns Classifier.empty [9] none).1 rfl
  · exact (claim_C8_remove_total sorterIns Classifier.empty [] none).2 (by simp [withNode])

/-- The inserted element belongs to the spliced list. -/
theorem mem_insertAt {β : Type} (v : β) : ∀ (l : List β) (i : Nat), v ∈ insertAt l i v := by
  intro l
  induction l with
  | nil => intro i; cases i <;> simp [insertAt]
  | cons a as ih =>
    intro i
    cases i with
    | zero => simp [insertAt]
    | succ n => simpa [insertAt] using Or.inr (ih n)

/-- When a class insertion reports `true`, the item is stored. -/
theorem clsAdd_true_mem {β : Type} (pol : VPol β) (items : List β) (item : β) :
    (clsAdd pol items item).1 = true → item ∈ (clsAdd pol items item).2 := by
  cases pol with
  | queue fifo => intro _; simp [clsAdd]
  | sorted comparator =>
    simp only [clsAdd, saAdd]
    cases h : logSearch item items comparator 0 items.length with
    | mk index r =>
      cases r with
      | none => intro _; exact mem_insertAt item items index
      | some y => intro hfalse; cases hfalse

/-- Traversals ignore a node's own counters and class: two roots with the
same `sortedKeys` and `keyToChild` have the same descendant list. -/
theorem descendants_congr_root {κ β : Type} [DecidableEq κ] (first : Bool)
    (query : List (Option κ)) (d d' : Nat) (nin nout nin' nout' : Int) (sk : List κ)
    (ch : List (κ × Classifier κ β)) (cls cls' : List β) :
    descendants first query (Classifier.node d' nin' nout' sk ch cls') =
      descendants first query (Classifier.node d nin nout sk ch cls) := by
  simp only [descendants, Classifier.wt, descendantsF, Classifier.sortedKeys,
    Classifier.keyToChild]

/-- `entries()` likewise ignores the root's own counters and class. -/
theorem entries_congr_root {κ β : Type} [DecidableEq κ] (d d' : Nat)
    (nin nout nin' nout' : Int) (sk : List κ) (ch : List (κ × Classifier κ β))
    (cls cls' : List β) :
    entriesList (Classifier.node d' nin' nout' sk ch cls') =
      entriesList (Classifier.node d nin nout sk ch cls) := by
  simp only [entriesList, Classifier.wt, entriesF, Classifier.sortedKeys,
    Classifier.keyToChild]

/-- C4.  A value added under the empty key sequence lands in the root's own
equivalence class and is counted by `n()` and reported by `has([])`, but the
traversals (`get`, `values`, `entries`, `peek`, iteration) only ever yield
strict descendants of the start node, so they are left unchanged by the
addition. -/
theorem claim_C4_root_add_invisible {κ β : Type} [DecidableEq κ] (s : Sorter κ β)
    (c : Classifier κ β) (item : β) (x : Int) (hx : 0 < x) (hnn : 0 ≤ c.nin) :
    (Classifier.add s c [] item x).2.has [] = true ∧
    (Classifier.add s c [] item x).2.nval = c.nval + x ∧
    ((Classifier.add s c [] item x).1 = true → item ∈ (Classifier.add s c [] item x).2.cls) ∧
    (∀ first query, getItems first query (Classifier.add s c [] item x).2 =
      getItems first query c) ∧
    valuesList (Classifier.add s c [] item x).2 = valuesList c ∧
    entriesList (Classifier.add s c [] item x).2 = entriesList c ∧
    (∀ first, peekItem first (Classifier.add s c [] item x).2 = peekItem first c) := by
  cases c with
  | node d nin nout sk ch cls =>
    simp only [Classifier.nin] at hnn
    simp only [Classifier.add, addAux]
    refine ⟨?_, ?_, ?_, ?_, ?_, ?_, ?_⟩
    · simp only [Classifier.has, withNode, Classifier.nin, decide_eq_true_eq]
      omega
    · simp only [Classifier.nval, Classifier.nin, Classifier.nout]
      omega
    · simpa only [Classifier.cls] using clsAdd_true_mem (s d).2 cls item
    · intro first query
      simp only [getItems]
      rw [descendants_congr_root first query d d nin nout _ _ sk ch cls]
    · simp only [valuesList]
      rw [descendants_congr_root true [] d d nin nout _ _ sk ch cls]
    · exact entries_congr_root d d nin nout _ _ sk ch cls _
    · intro first
      simp only [peekItem, getItems]
      rw [descendants_congr_root first [] d d nin nout _ _ sk ch cls]

/-- Witness for C4 at a concrete input: adding `5` at the root of an empty
classifier is visible to `has([])` and `n()` but invisible to the
traversals. -/
theorem claim_C4_witness :
    (0 : Int) < 1 ∧ 0 ≤ (Classifier.empty : Classifier Int Int).nin ∧
    (Classifier.add sorterIns Classifier.empty [] 5 1).2.has [] = true ∧
    (Classifier.add sorterIns Classifier.empty [] 5 1).2.nval =
      (Classifier.empty : Classifier Int Int).nval + 1 ∧
    valuesList (Classifier.add sorterIns Classifier.empty [] 5 1).2 =
      valuesList (Classifier.empty : Classifier Int Int) ∧
    getItems true [] (Classifier.add sorterIns Classifier.empty [] 5 1).2 =
      getItems true [] (Classifier.empty : Classifier Int Int) := by
  have h := claim_C4_root_add_invisible sorterIns (Classifier.empty : Classifier Int Int)
    5 1 (by decide) (by decide)
  exact ⟨by decide, by decide, h.1, h.2.1, h.2.2.2.2.1, h.2.2.2.1 true []⟩

/-! ## Association-list lemmas -/

theorem lookupChild_mem {κ β : Type} [DecidableEq κ] {k : κ} {c : Classifier κ β} :
    ∀ {ch : List (κ × Classifier κ β)}, lookupChild ch k = some c → (k, c) ∈ ch := by
  intro ch
  induction ch with
  | nil => intro h; cases h
  | cons p rest ih =>
    obtain ⟨k', c'⟩ := p
    intro h
    simp only [lookupChild] at h
    by_cases hk : k' = k
    · rw [if_pos hk] at h
      subst hk
      cases h
      exact List.mem_cons_self _ _
    · rw [if_neg hk] at h
      exact List.mem_cons_of_mem _ (ih h)

theorem lookupChild_replace_self {κ β : Type} [DecidableEq κ] {k : κ}
    {c c' : Classifier κ β} :
    ∀ {ch : List (κ × Classifier κ β)}, lookupChild ch k = some c →
      lookupChild (replaceChild ch k c') k = some c' := by
  intro ch
  induction ch with
  | nil => intro h; cases h
  | cons p rest ih =>
    obtain ⟨k', c''⟩ := p
    simp only [lookupChild, replaceChild]
    by_cases hk : k' = k
    · subst hk
      intro _
      simp [lookupChild]
    · intro h
      rw [if_neg hk] at h ⊢
      simpa [lookupChild, hk] using ih h

theorem lookupChild_append_left_none {κ β : Type} [DecidableEq κ] {k : κ} :
    ∀ {ch l : List (κ × Classifier κ β)}, lookupChild ch k = none →
      lookupChild (ch ++ l) k = lookupChild l k := by
  intro ch l
  induction ch with
  | nil => intro _; rfl
  | cons p rest ih =>
    obtain ⟨k', c'⟩ := p
    simp only [lookupChild, List.cons_append]
    by_cases hk : k' = k
    · simp [hk]
    · intro h
      rw [if_neg hk] at h ⊢
      exact ih h

theorem lookupChild_none_of_not_mem {κ β : Type} [DecidableEq κ] {k : κ} :
    ∀ {ch : List (κ × Classifier κ β)}, k ∉ ch.map Prod.fst → lookupChild ch k = none := by
  intro ch
  induction ch with
  | nil => intro _; rfl
  | cons p rest ih =>
    obtain ⟨k', c'⟩ := p
    simp only [List.map_cons, List.mem_cons, lookupChild]
    intro h
    push_neg at h
    rw [if_neg (fun he => h.1 he.symm)]
    exact ih h.2

theorem lookupChild_erase_self {κ β : Type} [DecidableEq κ] {k : κ} :
    ∀ {ch : List (κ × Classifier κ β)}, (ch.map Prod.fst).Nodup →
      lookupChild (eraseChild ch k) k = none := by
  intro ch
  induction ch with
  | nil => intro _; rfl
  | cons p rest ih =>
    obtain ⟨k', c'⟩ := p
    simp only [List.map_cons, List.nodup_cons]
    intro h
    simp only [eraseChild]
    by_cases hk : k' = k
    · subst hk
      rw [if_pos rfl]
      exact lookupChild_none_of_not_mem h.1
    · rw [if_neg hk]
      simp only [lookupChild, if_neg hk]
      exact ih h.2

/-! ## `has` after `add` / `remove` -/

/-- With a positive count, the walk creates every missing node, so `addAux`
always succeeds. -/
theorem addAux_pos_isSome {κ β : Type} [DecidableEq κ] (s : Sorter κ β) (item : β)
    (x : Int) (hx : 0 < x) :
    ∀ (keys : List κ) (c : Classifier κ β), addAux s c keys item x ≠ none := by
  intro keys
  induction keys with
  | nil =>
    intro c
    cases c with
    | node d nin nout sk ch cls => simp [addAux]
  | cons k ks ih =>
    intro c
    cases c with
    | node d nin nout sk ch cls =>
      simp only [addAux]
      cases hl : lookupChild ch k with
      | some child =>
        cases hr : addAux s child ks item x with
        | none => exact absurd hr (ih child)
        | some r =>
          obtain ⟨got, child', pr⟩ := r
          dsimp only
          rw [hr]
          by_cases hpr : pr <;> simp [hpr]
      | none =>
        rw [if_pos hx]
        cases hr : addAux s (Classifier.fresh (d + 1)) ks item x with
        | none => exact absurd hr (ih _)
        | some r =>
          obtain ⟨got, child', pr⟩ := r
          dsimp only
          rw [hr]
          by_cases hpr : pr <;> simp [hpr]

/-- With a positive count on a tree with non-negative counters, `addAux`
never activates the prune chain and the added path answers `has`. -/
theorem addAux_pos_has {κ β : Type} [DecidableEq κ] (s : Sorter κ β) (item : β)
    (x : Int) (hx : 0 < x) :
    ∀ (keys : List κ) (c : Classifier κ β) (r : Bool × Classifier κ β × Bool),
      Nonneg c → addAux s c keys item x = some r →
      r.2.2 = false ∧ r.2.1.has keys = true := by
  intro keys
  induction keys with
  | nil =>
    intro c r hnn h
    cases c with
    | node d nin nout sk ch cls =>
      cases hnn with
      | node _ _ _ _ _ _ hnin hnout _ =>
        simp only [addAux, Option.some.injEq] at h
        subst h
        constructor
        · simp only [decide_eq_false_iff_not]
          intro hc
          omega
        · simp only [Classifier.has, withNode, Classifier.nin, decide_eq_true_eq]
          omega
  | cons k ks ih =>
    intro c r hnn h
    cases c with
    | node d nin nout sk ch cls =>
      cases hnn with
      | node _ _ _ _ _ _ hnin hnout hch =>
        simp only [addAux] at h
        cases hl : lookupChild ch k with
        | some child =>
          rw [hl] at h
          simp only at h
          cases hr : addAux s child ks item x with
          | none => rw [hr] at h; cases h
          | some rr =>
            obtain ⟨got, child', pr⟩ := rr
            have hrec := ih child (got, child', pr) (hch _ (lookupChild_mem hl)) hr
            rw [hr] at h
            have hpr : pr = false := hrec.1
            subst hpr
            simp only [Bool.false_eq_true, if_false, Option.some.injEq] at h
            subst h
            refine ⟨rfl, ?_⟩
            simp only [Classifier.has, withNode, Classifier.keyToChild,
              lookupChild_replace_self hl]
            simpa [Classifier.has] using hrec.2
        | none =>
          rw [hl, if_pos hx] at h
          simp only at h
          cases hr : addAux s (Classifier.fresh (d + 1)) ks item x with
          | none => rw [hr] at h; cases h
          | some rr =>
            obtain ⟨got, child', pr⟩ := rr
            have hfr : Nonneg (Classifier.fresh (κ := κ) (β := β) (d + 1)) := by
              exact .node _ _ _ _ _ _ le_rfl le_rfl (by simp)
            have hrec := ih _ (got, child', pr) hfr hr
            rw [hr] at h
            have hpr : pr = false := hrec.1
            subst hpr
            simp only [Bool.false_eq_true, if_false, Option.some.injEq] at h
            subst h
            refine ⟨rfl, ?_⟩
            have hfind : lookupChild (ch ++ [(k, Classifier.fresh (d + 1))]) k =
                some (Classifier.fresh (β := β) (d + 1)) := by
              rw [lookupChild_append_left_none hl]
              simp [lookupChild]
            simp only [Classifier.has, withNode, Classifier.keyToChild,
              lookupChild_replace_self hfind]
            simpa [Classifier.has] using hrec.2

/-- An unbounded `remove` drains the terminal `nin` to zero and prunes,
so the removed path no longer answers `has`. -/
theorem removeAux_unbounded_has_false {κ β : Type} [DecidableEq κ] (s : Sorter κ β) :
    ∀ (keys : List κ) (c : Classifier κ β) (r : Classifier κ β × Bool × Int),
      KeysOK c → removeAux s c keys none = some r → r.1.has keys = false := by
  intro keys
  induction keys with
  | nil =>
    intro c r _ h
    cases c with
    | node d nin nout sk ch cls =>
      simp only [removeAux, Option.some.injEq] at h
      subst h
      simp [Classifier.has, withNode, Classifier.nin]
  | cons k ks ih =>
    intro c r hkeys h
    cases c with
    | node d nin nout sk ch cls =>
      cases hkeys with
      | node _ _ _ _ _ _ hnd hch =>
        simp only [removeAux] at h
        cases hl : lookupChild ch k with
        | none => rw [hl] at h; cases h
        | some child =>
          rw [hl] at h
          dsimp only at h
          cases hr : removeAux s child ks none with
          | none => rw [hr] at h; cases h
          | some rr =>
            obtain ⟨child', pr, dec⟩ := rr
            have hrec := ih child (child', pr, dec) (hch _ (lookupChild_mem hl)) hr
            rw [hr] at h
            dsimp only at h
            by_cases hpr : pr
            · subst hpr
              rw [if_pos rfl] at h
              simp only [Option.some.injEq] at h
              subst h
              simp [Classifier.has, withNode, Classifier.keyToChild,
                lookupChild_erase_self hnd]
            · simp only [hpr, if_false, Bool.false_eq_true, Option.some.injEq] at h
              subst h
              simp only [Classifier.has, withNode, Classifier.keyToChild,
                lookupChild_replace_self hl]
              simpa [Classifier.has] using hrec

/-- C5.  `has(k)` is true immediately after `add(k, v)` with the default
count of one, false immediately after an unbounded `remove(k)`, and in
general reports that the path exists with a positive terminal `nin`. -/
theorem claim_C5_has_add_remove {κ β : Type} [DecidableEq κ] (s : Sorter κ β)
    (c : Classifier κ β) (keys : List κ) (item : β)
    (hnn : Nonneg c) (hkeys : KeysOK c) :
    (Classifier.add s c keys item 1).2.has keys = true ∧
    (Classifier.remove s c keys none).2.has keys = false ∧
    (c.has keys = true ↔ ∃ t, withNode c keys = some t ∧ 0 < t.nin) := by
  refine ⟨?_, ?_, ?_⟩
  · cases hr : addAux s c keys item 1 with
    | none => exact absurd hr (addAux_pos_isSome s item 1 (by decide) keys c)
    | some r =>
      obtain ⟨got, c', pr⟩ := r
      have := (addAux_pos_has s item 1 (by decide) keys c (got, c', pr) hnn hr).2
      simpa [Classifier.add, hr] using this
  · cases hr : removeAux s c keys none with
    | none =>
      have hw := (removeAux_none_iff s keys none c).mp hr
      simp [Classifier.remove, hr, Classifier.has, hw]
    | some r =>
      obtain ⟨c', pr, dec⟩ := r
      have := removeAux_unbounded_has_false s keys c (c', pr, dec) hkeys hr
      simpa [Classifier.remove, hr] using this
  · simp only [Classifier.has]
    cases hw : withNode c keys with
    | none => simp
    | some t => simp [hw]

/-- Witness for C5 at a concrete input. -/
theorem claim_C5_witness :
    Nonneg (Classifier.empty : Classifier Int Int) ∧
    KeysOK (Classifier.empty : Classifier Int Int) ∧
    (Classifier.add sorterIns Classifier.empty [4, 2] 7 1).2.has [4, 2] = true ∧
    (Classifier.remove sorterIns Classifier.empty [4, 2] none).2.has [4, 2] = false := by
  have h1 : Nonneg (Classifier.empty : Classifier Int Int) :=
    .node _ _ _ _ _ _ le_rfl le_rfl (by simp)
  have h2 : KeysOK (Classifier.empty : Classifier Int Int) :=
    .node _ _ _ _ _ _ (by simp) (by simp)
  have h := claim_C5_has_add_remove sorterIns Classifier.empty [4, 2] 7 h1 h2
  exact ⟨h1, h2, h.1, h.2.1⟩

/-! ## Counter accounting (claim C2 machinery) -/

theorem sumN_append_single {κ β : Type} (ch : List (κ × Classifier κ β)) (k : κ)
    (c : Classifier κ β) : sumN (ch ++ [(k, c)]) = sumN ch + c.nval := by
  simp [sumN]

theorem sumN_replaceChild {κ β : Type} [DecidableEq κ] {k : κ} {c : Classifier κ β}
    (c' : Classifier κ β) :
    ∀ {ch : List (κ × Classifier κ β)}, lookupChild ch k = some c →
      sumN (replaceChild ch k c') = sumN ch - c.nval + c'.nval := by
  intro ch
  induction ch with
  | nil => intro h; cases h
  | cons p rest ih =>
    obtain ⟨k', c''⟩ := p
    intro h
    simp only [lookupChild] at h
    simp only [replaceChild]
    by_cases hk : k' = k
    · rw [if_pos hk] at h
      cases h
      rw [if_pos hk]
      simp only [sumN, List.map_cons, List.sum_cons]
      ring
    · rw [if_neg hk] at h
      rw [if_neg hk]
      simp only [sumN, List.map_cons, List.sum_cons] at *
      rw [show (List.map (fun p => p.2.nval) (replaceChild rest k c')).sum =
        (List.map (fun p => p.2.nval) rest).sum - c.nval + c'.nval from ih h]
      ring

theorem sumN_eraseChild {κ β : Type} [DecidableEq κ] {k : κ} {c : Classifier κ β} :
    ∀ {ch : List (κ × Classifier κ β)}, lookupChild ch k = some c →
      sumN (eraseChild ch k) = sumN ch - c.nval := by
  intro ch
  induction ch with
  | nil => intro h; cases h
  | cons p rest ih =>
    obtain ⟨k', c''⟩ := p
    intro h
    simp only [lookupChild] at h
    simp only [eraseChild]
    by_cases hk : k' = k
    · rw [if_pos hk] at h
      cases h
      rw [if_pos hk]
      simp only [sumN, List.map_cons, List.sum_cons]
      ring
    · rw [if_neg hk] at h
      rw [if_neg hk]
      simp only [sumN, List.map_cons, List.sum_cons] at *
      rw [show (List.map (fun p => p.2.nval) (eraseChild rest k)).sum =
        (List.map (fun p => p.2.nval) rest).sum - c.nval from ih h]
      ring

theorem mem_replaceChild {κ β : Type} [DecidableEq κ] {k : κ} {c' : Classifier κ β}
    {p : κ × Classifier κ β} :
    ∀ {ch : List (κ × Classifier κ β)}, p ∈ replaceChild ch k c' → p ∈ ch ∨ p = (k, c') := by
  intro ch
  induction ch with
  | nil => intro h; cases h
  | cons q rest ih =>
    obtain ⟨k', c''⟩ := q
    simp only [replaceChild]
    by_cases hk : k' = k
    · rw [if_pos hk]
      intro h
      rcases List.mem_cons.mp h with h1 | h1
      · exact Or.inr h1
      · exact Or.inl (List.mem_cons_of_mem _ h1)
    · rw [if_neg hk]
      intro h
      rcases List.mem_cons.mp h with h1 | h1
      · exact Or.inl (h1 ▸ List.mem_cons_self _ _)
      · rcases ih h1 with h2 | h2
        · exact Or.inl (List.mem_cons_of_mem _ h2)
        · exact Or.inr h2

theorem mem_eraseChild {κ β : Type} [DecidableEq κ] {k : κ} {p : κ × Classifier κ β} :
    ∀ {ch : List (κ × Classifier κ β)}, p ∈ eraseChild ch k → p ∈ ch := by
  intro ch
  induction ch with
  | nil => intro h; cases h
  | cons q rest ih =>
    obtain ⟨k', c''⟩ := q
    simp only [eraseChild]
    by_cases hk : k' = k
    · rw [if_pos hk]
      exact fun h => List.mem_cons_of_mem _ h
    · rw [if_neg hk]
      intro h
      rcases List.mem_cons.mp h with h1 | h1
      · exact h1 ▸ List.mem_cons_self _ _
      · exact List.mem_cons_of_mem _ (ih h1)

/-- `add` changes the subtree occurrence count by exactly `x`, and an
active prune flag certifies that the returned node is empty. -/
theorem addAux_delta {κ β : Type} [DecidableEq κ] (s : Sorter κ β) (item : β) (x : Int)
    (keys : List κ) (c : Classifier κ β) (got : Bool) (c' : Classifier κ β) (pr : Bool)
    (h : addAux s c keys item x = some (got, c', pr)) :
    c'.nval = c.nval + x ∧ (pr = true → c'.nval = 0) := by
  cases keys with
  | nil =>
    cases c with
    | node d nin nout sk ch cls =>
      simp only [addAux, Option.some.injEq, Prod.mk.injEq] at h
      obtain ⟨-, h2, h3⟩ := h
      subst h2
      constructor
      · simp [Classifier.nval, Classifier.nin, Classifier.nout]; ring
      · intro hpr
        rw [← h3] at hpr
        simp only [decide_eq_true_eq] at hpr
        simp [Classifier.nval, Classifier.nin, Classifier.nout]
        omega
  | cons k ks =>
    cases c with
    | node d nin nout sk ch cls =>
      simp only [addAux] at h
      cases hl : lookupChild ch k with
      | some child =>
        rw [hl] at h
        dsimp only at h
        cases hr : addAux s child ks item x with
        | none => rw [hr] at h; cases h
        | some rr =>
          obtain ⟨got2, child', pr2⟩ := rr
          rw [hr] at h
          dsimp only at h
          by_cases hpr : pr2
          · subst hpr
            rw [if_pos rfl] at h
            simp only [Option.some.injEq, Prod.mk.injEq] at h
            obtain ⟨-, h2, h3⟩ := h
            subst h2
            constructor
            · simp [Classifier.nval, Classifier.nin, Classifier.nout]; ring
            · intro hp
              rw [← h3] at hp
              simp only [decide_eq_true_eq] at hp
              simp [Classifier.nval, Classifier.nin, Classifier.nout]
              omega
          · simp only [hpr, Bool.false_eq_true, if_false, Option.some.injEq, Prod.mk.injEq] at h
            obtain ⟨-, h2, h3⟩ := h
            subst h2
            constructor
            · simp [Classifier.nval, Classifier.nin, Classifier.nout]; ring
            · intro hp; rw [← h3] at hp; cases hp
      | none =>
        rw [hl] at h
        by_cases hx : 0 < x
        · rw [if_pos hx] at h
          dsimp only at h
          cases hr : addAux s (Classifier.fresh (d + 1)) ks item x with
          | none => rw [hr] at h; cases h
          | some rr =>
            obtain ⟨got2, child', pr2⟩ := rr
            rw [hr] at h
            dsimp only at h
            by_cases hpr : pr2
            · subst hpr
              rw [if_pos rfl] at h
              simp only [Option.some.injEq, Prod.mk.injEq] at h
              obtain ⟨-, h2, h3⟩ := h
              subst h2
              constructor
              · simp [Classifier.nval, Classifier.nin, Classifier.nout]; ring
              · intro hp
                rw [← h3] at hp
                simp only [decide_eq_true_eq] at hp
                simp [Classifier.nval, Classifier.nin, Classifier.nout]
                omega
            · simp only [hpr, Bool.false_eq_true, if_false, Option.some.injEq, Prod.mk.injEq] at h
              obtain ⟨-, h2, h3⟩ := h
              subst h2
              constructor
              · simp [Classifier.nval, Classifier.nin, Classifier.nout]; ring
              · intro hp; rw [← h3] at hp; cases hp
        · rw [if_neg hx] at h
          cases h

/-- `remove` changes the subtree occurrence count by exactly the subtracted
amount, and an active prune flag certifies emptiness. -/
theorem removeAux_delta {κ β : Type} [DecidableEq κ] (s : Sorter κ β) (x : Option Int)
    (keys : List κ) (c : Classifier κ β) (c' : Classifier κ β) (pr : Bool) (dec : Int)
    (h : removeAux s c keys x = some (c', pr, dec)) :
    c'.nval = c.nval - dec ∧ (pr = true → c'.nval = 0) := by
  cases keys with
  | nil =>
    cases c with
    | node d nin nout sk ch cls =>
      simp only [removeAux, Option.some.injEq, Prod.mk.injEq] at h
      obtain ⟨h2, h3, h4⟩ := h
      subst h2
      subst h4
      constructor
      · simp [Classifier.nval, Classifier.nin, Classifier.nout]; ring
      · intro hp
        rw [← h3] at hp
        simp only [decide_eq_true_eq] at hp
        simp [Classifier.nval, Classifier.nin, Classifier.nout]
        omega
  | cons k ks =>
    cases c with
    | node d nin nout sk ch cls =>
      simp only [removeAux] at h
      cases hl : lookupChild ch k with
      | none => rw [hl] at h; cases h
      | some child =>
        rw [hl] at h
        dsimp only at h
        cases hr : removeAux s child ks x with
        | none => rw [hr] at h; cases h
        | some rr =>
          obtain ⟨child', pr2, dec2⟩ := rr
          rw [hr] at h
          dsimp only at h
          by_cases hpr : pr2
          · subst hpr
            rw [if_pos rfl] at h
            simp only [Option.some.injEq, Prod.mk.injEq] at h
            obtain ⟨h2, h3, h4⟩ := h
            subst h2
            subst h4
            constructor
            · simp [Classifier.nval, Classifier.nin, Classifier.nout]; ring
            · intro hp
              rw [← h3] at hp
              simp only [decide_eq_true_eq] at hp
              simp [Classifier.nval, Classifier.nin, Classifier.nout]
              omega
          · simp only [hpr, Bool.false_eq_true, if_false, Option.some.injEq, Prod.mk.injEq] at h
            obtain ⟨h2, h3, h4⟩ := h
            subst h2
            subst h4
            constructor
            · simp [Classifier.nval, Classifier.nin, Classifier.nout]; ring
            · intro hp; rw [← h3] at hp; cases hp

theorem goodCounts_fresh {κ β : Type} (d : Nat) :
    GoodCounts (Classifier.fresh (κ := κ) (β := β) d) :=
  .node _ _ _ _ _ _ (by simp [sumN]) (by simp)

theorem nval_fresh {κ β : Type} (d : Nat) :
    (Classifier.fresh (κ := κ) (β := β) d).nval = 0 := rfl

/-- `addAux` preserves the counter invariant `nout = Σ children n()`. -/
theorem addAux_good {κ β : Type} [DecidableEq κ] (s : Sorter κ β) (item : β) (x : Int) :
    ∀ (keys : List κ) (c : Classifier κ β) (got : Bool) (c' : Classifier κ β) (pr : Bool),
      GoodCounts c → addAux s c keys item x = some (got, c', pr) → GoodCounts c' := by
  intro keys
  induction keys with
  | nil =>
    intro c got c' pr hg h
    cases c with
    | node d nin nout sk ch cls =>
      cases hg with
      | node _ _ _ _ _ _ hout hch =>
        simp only [addAux, Option.some.injEq, Prod.mk.injEq] at h
        obtain ⟨-, h2, -⟩ := h
        subst h2
        exact .node _ _ _ _ _ _ hout hch
  | cons k ks ih =>
    intro c got c' pr hg h
    cases c with
    | node d nin nout sk ch cls =>
      cases hg with
      | node _ _ _ _ _ _ hout hch =>
        simp only [addAux] at h
        cases hl : lookupChild ch k with
        | some child =>
          rw [hl] at h
          dsimp only at h
          cases hr : addAux s child ks item x with
          | none => rw [hr] at h; cases h
          | some rr =>
            obtain ⟨got2, child', pr2⟩ := rr
            rw [hr] at h
            dsimp only at h
            have hgood' := ih child got2 child' pr2 (hch _ (lookupChild_mem hl)) hr
            have hdel := addAux_delta s item x ks child got2 child' pr2 hr
            by_cases hpr : pr2
            · subst hpr
              rw [if_pos rfl] at h
              simp only [Option.some.injEq, Prod.mk.injEq] at h
              obtain ⟨-, h2, -⟩ := h
              subst h2
              refine .node _ _ _ _ _ _ ?_ ?_
              · rw [sumN_eraseChild hl]
                have h0 := hdel.2 rfl
                have h1 := hdel.1
                linarith
              · exact fun p hp => hch p (mem_eraseChild hp)
            · simp only [hpr, Bool.false_eq_true, if_false, Option.some.injEq,
                Prod.mk.injEq] at h
              obtain ⟨-, h2, -⟩ := h
              subst h2
              refine .node _ _ _ _ _ _ ?_ ?_
              · rw [sumN_replaceChild child' hl]
                have h1 := hdel.1
                linarith
              · intro p hp
                rcases mem_replaceChild hp with h1 | h1
                · exact hch p h1
                · rw [h1]; exact hgood'
        | none =>
          rw [hl] at h
          by_cases hx : 0 < x
          · rw [if_pos hx] at h
            dsimp only at h
            cases hr : addAux s (Classifier.fresh (d + 1)) ks item x with
            | none => rw [hr] at h; cases h
            | some rr =>
              obtain ⟨got2, child', pr2⟩ := rr
              rw [hr] at h
              dsimp only at h
              have hgood' := ih _ got2 child' pr2 (goodCounts_fresh (d + 1)) hr
              have hdel := addAux_delta s item x ks _ got2 child' pr2 hr
              have hfind : lookupChild (ch ++ [(k, Classifier.fresh (d + 1))]) k =
                  some (Classifier.fresh (β := β) (d + 1)) := by
                rw [lookupChild_append_left_none hl]
                simp [lookupChild]
              by_cases hpr : pr2
              · subst hpr
                have h0 := hdel.2 rfl
                have h1 := hdel.1
                rw [nval_fresh] at h1
                omega
              · simp only [hpr, Bool.false_eq_true, if_false, Option.some.injEq,
                  Prod.mk.injEq] at h
                obtain ⟨-, h2, -⟩ := h
                subst h2
                refine .node _ _ _ _ _ _ ?_ ?_
                · rw [sumN_replaceChild child' hfind, sumN_append_single, nval_fresh]
                  have h1 := hdel.1
                  rw [nval_fresh] at h1
                  linarith
                · intro p hp
                  rcases mem_replaceChild hp with h1 | h1
                  · rcases List.mem_append.mp h1 with h2 | h2
                    · exact hch p h2
                    · simp only [List.mem_singleton] at h2
                      rw [h2]
                      exact goodCounts_fresh (d + 1)
                  · rw [h1]; exact hgood'
          · rw [if_neg hx] at h
            cases h

/-- `removeAux` preserves the counter invariant `nout = Σ children n()`. -/
theorem removeAux_good {κ β : Type} [DecidableEq κ] (s : Sorter κ β) (x : Option Int) :
    ∀ (keys : List κ) (c : Classifier κ β) (c' : Classifier κ β) (pr : Bool) (dec : Int),
      GoodCounts c → removeAux s c keys x = some (c', pr, dec) → GoodCounts c' := by
  intro keys
  induction keys with
  | nil =>
    intro c c' pr dec hg h
    cases c with
    | node d nin nout sk ch cls =>
      cases hg with
      | node _ _ _ _ _ _ hout hch =>
        simp only [removeAux, Option.some.injEq, Prod.mk.injEq] at h
        obtain ⟨h2, -, -⟩ := h
        subst h2
        exact .node _ _ _ _ _ _ hout hch
  | cons k ks ih =>
    intro c c' pr dec hg h
    cases c with
    | node d nin nout sk ch cls =>
      cases hg with
      | node _ _ _ _ _ _ hout hch =>
        simp only [removeAux] at h
        cases hl : lookupChild ch k with
        | none => rw [hl] at h; cases h
        | some child =>
          rw [hl] at h
          dsimp only at h
          cases hr : removeAux s child ks x with
          | none => rw [hr] at h; cases h
          | some rr =>
            obtain ⟨child', pr2, dec2⟩ := rr
            rw [hr] at h
            dsimp only at h
            have hgood' := ih child child' pr2 dec2 (hch _ (lookupChild_mem hl)) hr
            have hdel := removeAux_delta s x ks child child' pr2 dec2 hr
            by_cases hpr : pr2
            · subst hpr
              rw [if_pos rfl] at h
              simp only [Option.some.injEq, Prod.mk.injEq] at h
              obtain ⟨h2, -, h4⟩ := h
              subst h2
              subst h4
              refine .node _ _ _ _ _ _ ?_ ?_
              · rw [sumN_eraseChild hl]
                have h0 := hdel.2 rfl
                have h1 := hdel.1
                linarith
              · exact fun p hp => hch p (mem_eraseChild hp)
            · simp only [hpr, Bool.false_eq_true, if_false, Option.some.injEq,
                Prod.mk.injEq] at h
              obtain ⟨h2, -, h4⟩ := h
              subst h2
              subst h4
              refine .node _ _ _ _ _ _ ?_ ?_
              · rw [sumN_replaceChild child' hl]
                have h1 := hdel.1
                linarith
              · intro p hp
                rcases mem_replaceChild hp with h1 | h1
                · exact hch p h1
                · rw [h1]; exact hgood'

/-- C2.  The counter invariant `nout(node) = Σ n() over the direct
children` holds at every node after every `add(keySequence, value, count)`
and every `remove(keySequence, maxCount)` (for any counts, including the
unbounded default). -/
theorem claim_C2_nout_sum_invariant {κ β : Type} [DecidableEq κ] (s : Sorter κ β)
    (c : Classifier κ β) (keys keys' : List κ) (item : β) (x : Int) (y : Option Int)
    (h : GoodCounts c) :
    GoodCounts (Classifier.add s c keys item x).2 ∧
    GoodCounts (Classifier.remove s c keys' y).2 := by
  constructor
  · cases hr : addAux s c keys item x with
    | none => simpa [Classifier.add, hr] using h
    | some r =>
      obtain ⟨got, c', pr⟩ := r
      simpa [Classifier.add, hr] using addAux_good s item x keys c got c' pr h hr
  · cases hr : removeAux s c keys' y with
    | none => simpa [Classifier.remove, hr] using h
    | some r =>
      obtain ⟨c', pr, dec⟩ := r
      simpa [Classifier.remove, hr] using removeAux_good s y keys' c c' pr dec h hr

/-- Witness for C2 at a concrete input: one `add` then one `remove` on an
initially empty classifier. -/
theorem claim_C2_witness :
    GoodCounts (Classifier.empty : Classifier Int Int) ∧
    GoodCounts (Classifier.add sorterIns Classifier.empty [3, 1] 9 1).2 ∧
    GoodCounts (Classifier.remove sorterIns
      (Classifier.add sorterIns Classifier.empty [3, 1] 9 1).2 [3, 1] none).2 := by
  have h0 : GoodCounts (Classifier.empty : Classifier Int Int) :=
    .node _ _ _ _ _ _ (by simp [sumN]) (by simp)
  have h1 := claim_C2_nout_sum_invariant sorterIns Classifier.empty [3, 1] [3, 1] 9 1 none h0
  have h2 := claim_C2_nout_sum_invariant sorterIns
    (Classifier.add sorterIns Classifier.empty [3, 1] 9 1).2 [3, 1] [3, 1] 9 1 none h1.1
  exact ⟨h0, h1.1, h2.2⟩

/-! ## Pruning invariant (claim C3 machinery) -/

theorem Nonneg.nval_nonneg {κ β : Type} {c : Classifier κ β} (h : Nonneg c) :
    0 ≤ c.nval := by
  cases h with
  | node d nin nout sk ch cls hnin hnout _ =>
    simp only [Classifier.nval, Classifier.nin, Classifier.nout]
    omega

theorem nval_le_sumN {κ β : Type} [DecidableEq κ] {k : κ} {child : Classifier κ β} :
    ∀ {ch : List (κ × Classifier κ β)}, lookupChild ch k = some child →
      (∀ p ∈ ch, 0 ≤ p.2.nval) → child.nval ≤ sumN ch := by
  intro ch
  induction ch with
  | nil => intro h; cases h
  | cons p rest ih =>
    obtain ⟨k', c''⟩ := p
    intro h hnn
    simp only [lookupChild] at h
    simp only [sumN, List.map_cons, List.sum_cons]
    by_cases hk : k' = k
    · rw [if_pos hk] at h
      cases h
      have : (0 : Int) ≤ (rest.map (fun p => p.2.nval)).sum := by
        apply List.sum_nonneg
        intro a ha
        obtain ⟨q, hq, rfl⟩ := List.mem_map.mp ha
        exact hnn q (List.mem_cons_of_mem _ hq)
      linarith
    · rw [if_neg hk] at h
      have h1 := ih h (fun q hq => hnn q (List.mem_cons_of_mem _ hq))
      have h2 := hnn (k', c'') (List.mem_cons_self _ _)
      simp only [sumN] at h1
      linarith

/-- The combined preservation statement for `remove` on a sane tree:
counters stay non-negative, no attached non-root node becomes empty, the
prune flag is honest, and the subtracted amount is bounded by the subtree
count. -/
theorem removeAux_preserves {κ β : Type} [DecidableEq κ] (s : Sorter κ β) (x : Option Int) :
    ∀ (keys : List κ) (c : Classifier κ β) (c' : Classifier κ β) (pr : Bool) (dec : Int),
      GoodCounts c → Nonneg c → NoEmpty c →
      removeAux s c keys x = some (c', pr, dec) →
      Nonneg c' ∧ NoEmpty c' ∧ (pr = false → ¬(c'.nin = 0 ∧ c'.nout = 0)) ∧ dec ≤ c.nval := by
  intro keys
  induction keys with
  | nil =>
    intro c c' pr dec hg hn he h
    cases c with
    | node d nin nout sk ch cls =>
      cases hn with
      | node _ _ _ _ _ _ hnin hnout hnch =>
        simp only [removeAux, Option.some.injEq, Prod.mk.injEq] at h
        obtain ⟨h2, h3, h4⟩ := h
        have hdec : dec ≤ nin := by
          rw [← h4]
          cases x with
          | none => exact le_rfl
          | some q => exact min_le_right _ _
        subst h2
        refine ⟨?_, ?_, ?_, ?_⟩
        · exact .node _ _ _ _ _ _ (by omega) hnout hnch
        · cases he with
          | node _ _ _ _ _ _ hene hech => exact .node _ _ _ _ _ _ hene hech
        · intro hpr
          rw [← h3] at hpr
          simp only [decide_eq_false_iff_not] at hpr
          simpa [Classifier.nin, Classifier.nout] using hpr
        · simp only [Classifier.nval, Classifier.nin, Classifier.nout]
          omega
  | cons k ks ih =>
    intro c c' pr dec hg hn he h
    cases c with
    | node d nin nout sk ch cls =>
      cases hg with
      | node _ _ _ _ _ _ hout hgch =>
        cases hn with
        | node _ _ _ _ _ _ hnin hnout hnch =>
          cases he with
          | node _ _ _ _ _ _ hene hech =>
            simp only [removeAux] at h
            cases hl : lookupChild ch k with
            | none => rw [hl] at h; cases h
            | some child =>
              rw [hl] at h
              dsimp only at h
              cases hr : removeAux s child ks x with
              | none => rw [hr] at h; cases h
              | some rr =>
                obtain ⟨child', pr2, dec2⟩ := rr
                rw [hr] at h
                dsimp only at h
                have hmem := lookupChild_mem hl
                have hrec := ih child child' pr2 dec2 (hgch _ hmem) (hnch _ hmem)
                  (hech _ hmem) hr
                have hdel := removeAux_delta s x ks child child' pr2 dec2 hr
                have hvals : ∀ p ∈ ch, 0 ≤ p.2.nval := fun p hp =>
                  (hnch p hp).nval_nonneg
                have hchild_le : child.nval ≤ sumN ch := nval_le_sumN hl hvals
                by_cases hpr : pr2
                · subst hpr
                  rw [if_pos rfl] at h
                  simp only [Option.some.injEq, Prod.mk.injEq] at h
                  obtain ⟨h2, h3, h4⟩ := h
                  subst h2
                  subst h4
                  have hdec_le : dec2 ≤ child.nval := hrec.2.2.2
                  refine ⟨?_, ?_, ?_, ?_⟩
                  · refine .node _ _ _ _ _ _ hnin ?_ ?_
                    · have h0 := hdel.2 rfl
                      have h1 := hdel.1
                      have := (hnch _ hmem).nval_nonneg
                      omega
                    · exact fun p hp => hnch p (mem_eraseChild hp)
                  · exact .node _ _ _ _ _ _ (fun p hp => hene p (mem_eraseChild hp))
                      (fun p hp => hech p (mem_eraseChild hp))
                  · intro hprr
                    rw [← h3] at hprr
                    simp only [decide_eq_false_iff_not] at hprr
                    simpa [Classifier.nin, Classifier.nout] using hprr
                  · simp only [Classifier.nval, Classifier.nin, Classifier.nout]
                    omega
                · simp only [hpr, Bool.false_eq_true, if_false, Option.some.injEq,
                    Prod.mk.injEq] at h
                  obtain ⟨h2, h3, h4⟩ := h
                  subst h2
                  subst h4
                  have hdec_le : dec2 ≤ child.nval := hrec.2.2.2
                  have hnonempty' : ¬(child'.nin = 0 ∧ child'.nout = 0) :=
                    hrec.2.2.1 (by simpa using hpr)
                  have hnn' : Nonneg child' := hrec.1
                  have hval_pos : 0 < child'.nval := by
                    cases hnn' with
                    | node d2 nin2 nout2 sk2 ch2 cls2 ha hb _ =>
                      simp only [Classifier.nin, Classifier.nout] at hnonempty'
                      simp only [Classifier.nval, Classifier.nin, Classifier.nout]
                      omega
                  refine ⟨?_, ?_, ?_, ?_⟩
                  · refine .node _ _ _ _ _ _ hnin (by omega) ?_
                    intro p hp
                    rcases mem_replaceChild hp with h1 | h1
                    · exact hnch p h1
                    · rw [h1]; exact hnn'
                  · refine .node _ _ _ _ _ _ ?_ ?_
                    · intro p hp
                      rcases mem_replaceChild hp with h1 | h1
                      · exact hene p h1
                      · rw [h1]
                        simpa using hnonempty'
                    · intro p hp
                      rcases mem_replaceChild hp with h1 | h1
                      · exact hech p h1
                      · rw [h1]; exact hrec.2.1
                  · intro _
                    simp only [Classifier.nin, Classifier.nout]
                    have h1 := hdel.1
                    intro hcon
                    omega
                  · simp only [Classifier.nval, Classifier.nin, Classifier.nout]
                    omega

/-! ## Binary search and SortedArray correctness (claim C6 machinery) -/

theorem tp_le_lt {β : Type} {comparator : β → β → Int} (tp : IsTotalPre comparator)
    {a b c : β} (h1 : comparator a b ≤ 0) (h2 : comparator b c < 0) :
    comparator a c < 0 := by
  by_contra hac
  have hca : comparator c a ≤ 0 := by
    have := (tp.flip a c).not.mp hac
    have := (tp.flip c a)
    omega
  have hcb : comparator c b ≤ 0 := tp.letrans c a b hca h1
  have := (tp.flip b c).mp h2
  omega

theorem tp_lt_le {β : Type} {comparator : β → β → Int} (tp : IsTotalPre comparator)
    {a b c : β} (h1 : comparator a b < 0) (h2 : comparator b c ≤ 0) :
    comparator a c < 0 := by
  by_contra hac
  have hca : comparator c a ≤ 0 := by
    have := (tp.flip a c).not.mp hac
    have := (tp.flip c a)
    omega
  have hba : comparator b a ≤ 0 := tp.letrans b c a h2 hca
  have := (tp.flip a b).mp h1
  omega

theorem tp_refl_zero {β : Type} {comparator : β → β → Int} (tp : IsTotalPre comparator)
    (a : β) : comparator a a = 0 := by
  have h := tp.flip a a
  omega

/-- A successful binary search returns an index into the array holding an
element comparing equal to the target. -/
theorem logSearchGo_found {β : Type} (item : β) (l : List β) (comparator : β → β → Int) :
    ∀ (fuel start stop i : Nat) (y : β),
      logSearchGo item l comparator fuel start stop = (i, some y) →
      ∃ h : i < l.length, l[i] = y ∧ comparator y item = 0 := by
  intro fuel
  induction fuel with
  | zero => intro start stop i y h; simp [logSearchGo] at h
  | succ fuel ih =>
    intro start stop i y h
    simp only [logSearchGo] at h
    by_cases hlt : start < stop
    · rw [if_pos hlt] at h
      cases hg : l.get? ((start + stop) / 2) with
      | none => rw [hg] at h; simp at h
      | some x =>
        rw [hg] at h
        dsimp only at h
        by_cases hc0 : comparator x item = 0
        · rw [if_pos hc0] at h
          simp only [Prod.mk.injEq, Option.some.injEq] at h
          obtain ⟨h1, h2⟩ := h
          subst h2
          have hlen : (start + stop) / 2 < l.length := by
            by_contra hbig
            rw [List.get?_eq_getElem?, List.getElem?_eq_none (by omega)] at hg
            cases hg
          subst h1
          refine ⟨hlen, ?_, hc0⟩
          rw [List.get?_eq_getElem?, List.getElem?_eq_getElem hlen] at hg
          exact (Option.some.injEq _ _).mp hg
        · rw [if_neg hc0] at h
          by_cases hcneg : comparator x item < 0
          · rw [if_pos hcneg] at h
            exact ih _ _ _ _ h
          · rw [if_neg hcneg] at h
            exact ih _ _ _ _ h
    · rw [if_neg hlt] at h
      simp at h

/-- An unsuccessful binary search over a sorted window partitions it: every
element before the returned index compares below the target, every element
from the index to the window's end compares above it. -/
theorem logSearchGo_none_bounds {β : Type} {comparator : β → β → Int}
    (tp : IsTotalPre comparator) {l : List β} {item : β}
    (hs : l.Pairwise (fun a b => comparator a b < 0)) :
    ∀ (fuel start stop i : Nat), start ≤ stop → stop ≤ l.length → stop - start ≤ fuel →
      logSearchGo item l comparator fuel start stop = (i, none) →
      start ≤ i ∧ i ≤ stop ∧
      (∀ j (hj : j < l.length), start ≤ j → j < i → comparator l[j] item < 0) ∧
      (∀ j (hj : j < l.length), i ≤ j → j < stop → 0 < comparator l[j] item) := by
  have hp := List.pairwise_iff_getElem.mp hs
  intro fuel
  induction fuel with
  | zero =>
    intro start stop i hss hsl hf h
    simp only [logSearchGo, Prod.mk.injEq] at h
    have hi : start = i := h.1
    subst hi
    have : stop = start := by omega
    subst this
    exact ⟨le_rfl, le_rfl, fun j hj h1 h2 => by omega, fun j hj h1 h2 => by omega⟩
  | succ fuel ih =>
    intro start stop i hss hsl hf h
    simp only [logSearchGo] at h
    by_cases hlt : start < stop
    · rw [if_pos hlt] at h
      have hmidlo : start ≤ (start + stop) / 2 := by omega
      have hmidhi : (start + stop) / 2 < stop := by omega
      have hmidlen : (start + stop) / 2 < l.length := by omega
      rw [List.get?_eq_getElem?, List.getElem?_eq_getElem hmidlen] at h
      dsimp only at h
      by_cases hc0 : comparator l[(start + stop) / 2] item = 0
      · rw [if_pos hc0] at h
        simp at h
      · rw [if_neg hc0] at h
        by_cases hcneg : comparator l[(start + stop) / 2] item < 0
        · rw [if_pos hcneg] at h
          obtain ⟨h1, h2, h3, h4⟩ := ih ((start + stop) / 2 + 1) stop i (by omega) hsl
            (by omega) h
          refine ⟨by omega, h2, ?_, h4⟩
          intro j hj hjs hji
          by_cases hcase : (start + stop) / 2 + 1 ≤ j
          · exact h3 j hj hcase hji
          · have hjm : j ≤ (start + stop) / 2 := by omega
            rcases Nat.lt_or_ge j ((start + stop) / 2) with hjlt | hjge
            · exact tp_le_lt tp (le_of_lt (hp j _ hj hmidlen hjlt)) hcneg
            · have : j = (start + stop) / 2 := by omega
              subst this
              exact hcneg
        · rw [if_neg hcneg] at h
          obtain ⟨h1, h2, h3, h4⟩ := ih start ((start + stop) / 2) i (by omega) (by omega)
            (by omega) h
          refine ⟨h1, by omega, h3, ?_⟩
          intro j hj hji hjs
          by_cases hcase : j < (start + stop) / 2
          · exact h4 j hj hji hcase
          · have hcpos : 0 < comparator l[(start + stop) / 2] item := by omega
            rcases Nat.lt_or_ge ((start + stop) / 2) j with hjlt | hjge
            · have hmj : comparator l[(start + stop) / 2] l[j] < 0 := hp _ j hmidlen hj hjlt
              have h5 : comparator item l[(start + stop) / 2] < 0 := (tp.flip _ _).mpr hcpos
              have h6 : comparator item l[j] < 0 :=
                tp_lt_le tp h5 (le_of_lt hmj)
              exact (tp.flip _ _).mp h6
            · have : j = (start + stop) / 2 := by omega
              subst this
              exact hcpos
    · rw [if_neg hlt] at h
      simp only [Prod.mk.injEq] at h
      have hi : start = i := h.1
      subst hi
      have : stop = start := by omega
      subst this
      exact ⟨le_rfl, le_rfl, fun j hj h1 h2 => by omega, fun j hj h1 h2 => by omega⟩

theorem insertAt_eq_take_drop {β : Type} (v : β) :
    ∀ (l : List β) (i : Nat), i ≤ l.length →
      insertAt l i v = l.take i ++ v :: l.drop i := by
  intro l
  induction l with
  | nil =>
    intro i hi
    have : i = 0 := by simpa using hi
    subst this
    rfl
  | cons a as ih =>
    intro i hi
    cases i with
    | zero => rfl
    | succ n =>
      simp only [insertAt, List.take_succ_cons, List.drop_succ_cons, List.cons_append,
        List.cons.injEq, true_and]
      exact ih n (by simpa using hi)

theorem pairwise_insertAt {β : Type} {R : β → β → Prop} {l : List β} {v : β} {i : Nat}
    (hi : i ≤ l.length) (hs : l.Pairwise R)
    (hlo : ∀ b ∈ l.take i, R b v) (hhi : ∀ b ∈ l.drop i, R v b) :
    (insertAt l i v).Pairwise R := by
  rw [insertAt_eq_take_drop v l i hi, List.pairwise_append]
  refine ⟨hs.sublist (List.take_sublist i l), ?_, ?_⟩
  · rw [List.pairwise_cons]
    exact ⟨hhi, hs.sublist (List.drop_sublist i l)⟩
  · intro a ha b hb
    rcases List.mem_cons.mp hb with rfl | hb2
    · exact hlo a ha
    · have hsplit : (l.take i ++ l.drop i).Pairwise R := by
        rw [List.take_append_drop]
        exact hs
      exact (List.pairwise_append.mp hsplit).2.2 a ha b hb2

/-- The full correctness of `SortedArray.add` on a sorted backing list:
an equivalent element forces rejection without mutation; otherwise the
element is inserted at the binary-search index and the list stays sorted. -/
theorem saAdd_correct {β : Type} {comparator : β → β → Int} (tp : IsTotalPre comparator)
    {items : List β} (item : β)
    (hs : items.Pairwise (fun a b => comparator a b < 0)) :
    ((∃ y ∈ items, comparator y item = 0) → saAdd comparator items item = (false, items)) ∧
    ((¬∃ y ∈ items, comparator y item = 0) →
      saAdd comparator items item =
        (true, insertAt items (logSearch item items comparator 0 items.length).1 item)) ∧
    (saAdd comparator items item).2.Pairwise (fun a b => comparator a b < 0) := by
  cases hls : logSearch item items comparator 0 items.length with
  | mk index r =>
    cases r with
    | some y =>
      obtain ⟨hlen, hget, hcmp⟩ := logSearchGo_found item items comparator _ _ _ _ _ hls
      refine ⟨?_, ?_, ?_⟩
      · intro _
        simp [saAdd, hls]
      · intro hno
        exact absurd ⟨y, hget ▸ List.getElem_mem hlen, hcmp⟩ hno
      · simpa [saAdd, hls] using hs
    | none =>
      obtain ⟨h1, h2, h3, h4⟩ := logSearchGo_none_bounds tp hs _ 0 items.length index
        (by omega) le_rfl (by omega) hls
      refine ⟨?_, ?_, ?_⟩
      · intro ⟨y, hy, hcy⟩
        obtain ⟨j, hj, rfl⟩ := List.mem_iff_getElem.mp hy
        rcases Nat.lt_or_ge j index with hcase | hcase
        · have := h3 j hj (by omega) hcase
          omega
        · have := h4 j hj hcase hj
          omega
      · intro _
        simp [saAdd, hls]
      · have hres : (saAdd comparator items item).2 = insertAt items index item := by
          simp [saAdd, hls]
        rw [hres]
        refine pairwise_insertAt h2 hs ?_ ?_
        · intro b hb
          obtain ⟨j, hj, hget⟩ := List.mem_iff_getElem.mp hb
          have hjlt : j < index := by
            have := hj
            simp only [List.length_take] at this
            omega
          have hjlen : j < items.length := by
            have := hj
            simp only [List.length_take] at this
            omega
          have : (items.take index)[j] = items[j] := List.getElem_take ..
          rw [this] at hget
          rw [← hget]
          exact h3 j hjlen (by omega) hjlt
        · intro b hb
          obtain ⟨j, hj, hget⟩ := List.mem_iff_getElem.mp hb
          have hjlen : index + j < items.length := by
            have := hj
            simp only [List.length_drop] at this
            omega
          have : (items.drop index)[j] = items[index + j] := List.getElem_drop ..
          rw [this] at hget
          rw [← hget]
          exact (tp.flip _ _).mpr (h4 (index + j) hjlen (by omega) hjlen)

/-- `SortedArray.remove` keeps the backing list sorted. -/
theorem saRemove_sorted {β : Type} {comparator : β → β → Int} {items : List β} (item : β)
    (hs : items.Pairwise (fun a b => comparator a b < 0)) :
    (saRemove comparator items item).2.Pairwise (fun a b => comparator a b < 0) := by
  cases hls : logSearch item items comparator 0 items.length with
  | mk index r =>
    cases r with
    | some y =>
      have : (saRemove comparator items item).2 = items.eraseIdx index := by
        simp [saRemove, hls]
      rw [this]
      exact hs.sublist (List.eraseIdx_sublist items index)
    | none => simpa [saRemove, hls] using hs

/-- C6.  Under a total-preorder comparator a `SortedArray` stays sorted and
pairwise non-equivalent after every `add` and `remove`; `add` returns
`false` without mutation exactly when an equivalent item is present, and
otherwise inserts the item at the binary-search index and returns `true`. -/
theorem claim_C6_sorted_array {β : Type} (comparator : β → β → Int)
    (tp : IsTotalPre comparator) (items : List β) (item : β)
    (hs : items.Pairwise (fun a b => comparator a b < 0)) :
    (saAdd comparator items item).2.Pairwise (fun a b => comparator a b ≤ 0) ∧
    (saAdd comparator items item).2.Pairwise (fun a b => comparator a b ≠ 0) ∧
    (saRemove comparator items item).2.Pairwise (fun a b => comparator a b ≤ 0) ∧
    (saRemove comparator items item).2.Pairwise (fun a b => comparator a b ≠ 0) ∧
    (saAdd comparator items item).2.Pairwise (fun a b => comparator a b < 0) ∧
    (saRemove comparator items item).2.Pairwise (fun a b => comparator a b < 0) ∧
    ((∃ y ∈ items, comparator y item = 0) → saAdd comparator items item = (false, items)) ∧
    ((¬∃ y ∈ items, comparator y item = 0) →
      saAdd comparator items item =
        (true, insertAt items (logSearch item items comparator 0 items.length).1 item)) := by
  obtain ⟨ha1, ha2, ha3⟩ := saAdd_correct tp item hs
  have hr := saRemove_sorted item hs
  exact ⟨ha3.imp (fun h => le_of_lt h), ha3.imp (fun h => by omega),
    hr.imp (fun h => le_of_lt h), hr.imp (fun h => by omega), ha3, hr, ha1, ha2⟩

theorem ascInt_total_pre : IsTotalPre ascInt := by
  refine ⟨?_, ?_, ?_⟩
  · intro a b
    simp only [ascInt]
    omega
  · intro a b
    simp only [ascInt]
    omega
  · intro a b c h1 h2
    simp only [ascInt] at h1 h2 ⊢
    omega

/-- Witness for C6 at concrete inputs: adding `3` to `[1, 3]` is rejected;
adding `2` inserts it in order. -/
theorem claim_C6_witness :
    IsTotalPre ascInt ∧
    ([(1 : Int), 3].Pairwise (fun a b => ascInt a b < 0)) ∧
    (saAdd ascInt [1, 3] 3).2.Pairwise (fun a b => ascInt a b ≠ 0) ∧
    ((∃ y ∈ [(1 : Int), 3], ascInt y 3 = 0) → saAdd ascInt [1, 3] 3 = (false, [1, 3])) ∧
    saAdd ascInt [1, 3] 2 = (true, [1, 2, 3]) := by
  have htp := ascInt_total_pre
  have hs : ([(1 : Int), 3].Pairwise (fun a b => ascInt a b < 0)) := by decide
  have h := claim_C6_sorted_array ascInt htp [1, 3] 3 hs
  have h2 := claim_C6_sorted_array ascInt htp [1, 3] 2 hs
  refine ⟨htp, hs, h.2.1, h.2.2.2.2.2.2.1, ?_⟩
  have := h2.2.2.2.2.2.2.2 (by decide)
  rw [this]
  decide

/-- C7.  Under representation `age` and a constant-zero value comparator,
adding Bob then Carol (both aged 18) stores only Bob, the second underlying
`Classifier.add` returning `false`; under insertion-order value storage
both coexist and `values()` yields them in insertion order. -/
theorem claim_C7_multiset_scenario :
    (Classifier.add sorterPersonSingular
        (TrueSet.add sorterPersonSingular ⟨reprAge, Classifier.empty⟩ bobP 1).classifier
        (reprAge carolP) carolP 1).1 = false ∧
    valuesList (TrueSet.add sorterPersonSingular
        (TrueSet.add sorterPersonSingular ⟨reprAge, Classifier.empty⟩ bobP 1)
        carolP 1).classifier = [bobP] ∧
    (Classifier.add sorterPersonIns
        (TrueSet.add sorterPersonIns ⟨reprAge, Classifier.empty⟩ bobP 1).classifier
        (reprAge carolP) carolP 1).1 = true ∧
    valuesList (TrueSet.add sorterPersonIns
        (TrueSet.add sorterPersonIns ⟨reprAge, Classifier.empty⟩ bobP 1)
        carolP 1).classifier = [bobP, carolP] := by
  decide

/-! ## Traversal recursion equations (claim C1 machinery) -/

theorem lflat_append {β γ : Type} (f : β → List γ) (l1 l2 : List β) :
    lflat f (l1 ++ l2) = lflat f l1 ++ lflat f l2 := by
  induction l1 with
  | nil => rfl
  | cons x xs ih => simp [lflat, ih]

theorem lflat_congr {β γ : Type} {f g : β → List γ} :
    ∀ {l : List β}, (∀ x ∈ l, f x = g x) → lflat f l = lflat g l := by
  intro l
  induction l with
  | nil => intro _; rfl
  | cons x xs ih =>
    intro h
    simp only [lflat]
    rw [h x (List.mem_cons_self _ _), ih (fun y hy => h y (List.mem_cons_of_mem _ hy))]

theorem reverse_lflat {β γ : Type} (f : β → List γ) :
    ∀ (l : List β), (lflat f l).reverse = lflat (fun x => (f x).reverse) l.reverse := by
  intro l
  induction l with
  | nil => rfl
  | cons x xs ih =>
    simp only [lflat, List.reverse_append, List.reverse_cons, ih, lflat_append]
    simp [lflat]

theorem lflat_eq_nil {β γ : Type} {f : β → List γ} :
    ∀ {l : List β}, (∀ x ∈ l, f x = []) → lflat f l = [] := by
  intro l
  induction l with
  | nil => intro _; rfl
  | cons x xs ih =>
    intro h
    simp only [lflat, h x (List.mem_cons_self _ _), List.nil_append]
    exact ih (fun y hy => h y (List.mem_cons_of_mem _ hy))

theorem lflat_lflat {β γ δ : Type} (f : γ → List δ) (g : β → List γ) :
    ∀ (l : List β), lflat f (lflat g l) = lflat (fun x => lflat f (g x)) l := by
  intro l
  induction l with
  | nil => rfl
  | cons x xs ih => simp only [lflat, lflat_append, ih]

theorem wt_le_of_mem {κ β : Type} {k : κ} {c : Classifier κ β} :
    ∀ {ch : List (κ × Classifier κ β)}, (k, c) ∈ ch → c.wt ≤ wtChildren ch := by
  intro ch
  induction ch with
  | nil => intro h; cases h
  | cons p rest ih =>
    intro h
    rcases List.mem_cons.mp h with h1 | h1
    · rw [← h1]
      simp only [wtChildren]
      omega
    · have := ih h1
      obtain ⟨k', c'⟩ := p
      simp only [wtChildren]
      omega

theorem wt_pos {κ β : Type} (c : Classifier κ β) : 1 ≤ c.wt := by
  cases c with
  | node d nin nout sk ch cls => simp [Classifier.wt]

/-- The fuel is irrelevant above the tree weight. -/
theorem descendantsF_fuel_congr {κ β : Type} [DecidableEq κ] (first : Bool)
    (query : List (Option κ)) :
    ∀ (f1 f2 : Nat) (c : Classifier κ β) (index : Nat),
      c.wt ≤ f1 → c.wt ≤ f2 →
      descendantsF first query f1 c index = descendantsF first query f2 c index := by
  intro f1
  induction f1 with
  | zero =>
    intro f2 c index h1 _
    exact absurd (le_trans (wt_pos c) h1) (by omega)
  | succ f1 ih =>
    intro f2 c index h1 h2
    cases c with
    | node d nin nout sk ch cls =>
      cases f2 with
      | zero => exact absurd (le_trans (wt_pos (.node d nin nout sk ch cls)) h2) (by omega)
      | succ f2 =>
        simp only [descendantsF, Classifier.sortedKeys, Classifier.keyToChild]
        apply lflat_congr
        intro key _
        cases hq : (match query.getD index none with
            | none => true
            | some mk => decide (key = mk)) with
        | false => simp
        | true =>
          simp only [if_pos rfl]
          cases hl : lookupChild ch key with
          | none => rfl
          | some child =>
            have hwt : child.wt ≤ wtChildren ch := wt_le_of_mem (lookupChild_mem hl)
            have hwtc : (Classifier.node d nin nout sk ch cls).wt = wtChildren ch + 1 := rfl
            dsimp only
            rw [ih f2 child (index + 1) (by omega) (by omega)]

/-- With an empty query every index is a wildcard. -/
theorem descendantsF_nil_query_index {κ β : Type} [DecidableEq κ] (first : Bool) :
    ∀ (fuel : Nat) (c : Classifier κ β) (i j : Nat),
      descendantsF first [] fuel c i = descendantsF first [] fuel c j := by
  intro fuel
  induction fuel with
  | zero => intro c i j; rfl
  | succ fuel ih =>
    intro c i j
    cases c with
    | node d nin nout sk ch cls =>
      simp only [descendantsF, Classifier.sortedKeys, Classifier.keyToChild, List.getD_nil]
      apply lflat_congr
      intro key _
      cases hl : lookupChild ch key with
      | none => rfl
      | some child =>
        dsimp only
        rw [ih child (i + 1) (j + 1)]

/-- The recursion equation of the full traversal (`query = []`): the start
node contributes the classes of each child (in key order, reversed when
`first = false`) followed by that child's own traversal. -/
theorem getItems_nil_eq {κ β : Type} [DecidableEq κ] (first : Bool) (d : Nat)
    (nin nout : Int) (sk : List κ) (ch : List (κ × Classifier κ β)) (cls : List β) :
    getItems first [] (Classifier.node d nin nout sk ch cls) =
      lflat
        (fun key =>
          match lookupChild ch key with
          | none => []
          | some child =>
            (if first then child.cls else child.cls.reverse) ++ getItems first [] child)
        (if first then sk else sk.reverse) := by
  simp only [getItems, descendants, Classifier.wt, descendantsF, Classifier.sortedKeys,
    Classifier.keyToChild, List.getD_nil, lflat_lflat]
  apply lflat_congr
  intro key _
  cases hl : lookupChild ch key with
  | none => rfl
  | some child =>
    have hwt : child.wt ≤ wtChildren ch := wt_le_of_mem (lookupChild_mem hl)
    dsimp only
    simp only [lflat]
    rw [descendantsF_nil_query_index first (wtChildren ch) child 1 0,
      descendantsF_fuel_congr first [] (wtChildren ch) child.wt child 0 hwt le_rfl]

/-- Strong induction on the tree weight. -/
theorem classifier_wt_ind {κ β : Type} {motive : Classifier κ β → Prop}
    (h : ∀ c, (∀ c', c'.wt < c.wt → motive c') → motive c) (c : Classifier κ β) :
    motive c := by
  have hall : ∀ (n : Nat) (c' : Classifier κ β), c'.wt ≤ n → motive c' := by
    intro n
    induction n with
    | zero => intro c' hc'; exact h c' (fun c'' hlt => by omega)
    | succ n ih => intro c' hc'; exact h c' (fun c'' hlt => ih c'' (by omega))
  exact hall c.wt c le_rfl

/-- A node whose strict descendants store nothing traverses to nothing. -/
theorem belowEmpty_getItems {κ β : Type} [DecidableEq κ] (first : Bool) :
    ∀ c : Classifier κ β, BelowEmpty c → getItems first [] c = [] := by
  intro c
  induction c using classifier_wt_ind with
  | h c ih =>
    intro hb
    cases c with
    | node d nin nout sk ch cls =>
      cases hb with
      | node _ _ _ _ _ _ hcls hch =>
        rw [getItems_nil_eq]
        apply lflat_eq_nil
        intro key _
        cases hl : lookupChild ch key with
        | none => rfl
        | some child =>
          have hmem := lookupChild_mem hl
          have hwt : child.wt < (Classifier.node d nin nout sk ch cls).wt := by
            have := wt_le_of_mem hmem
            simp only [Classifier.wt]
            omega
          dsimp only
          rw [hcls _ hmem, ih child hwt (hch _ hmem)]
          simp

/-- The amended mirror property: when value-bearing nodes form an
antichain, the reversed traversal is the exact reverse of the forward
traversal. -/
theorem mirrorOK_get_reverse {κ β : Type} [DecidableEq κ] :
    ∀ c : Classifier κ β, MirrorOK c →
      getItems false [] c = (getItems true [] c).reverse := by
  intro c
  induction c using classifier_wt_ind with
  | h c ih =>
    intro hm
    cases c with
    | node d nin nout sk ch cls =>
      cases hm with
      | node _ _ _ _ _ _ hanti hch =>
        rw [getItems_nil_eq, getItems_nil_eq]
        have hsel1 : (if (false : Bool) = true then sk else sk.reverse) = sk.reverse := by simp
        have hsel2 : (if (true : Bool) = true then sk else sk.reverse) = sk := by simp
        rw [hsel1, hsel2, reverse_lflat]
        apply lflat_congr
        intro key _
        cases hl : lookupChild ch key with
        | none => rfl
        | some child =>
          have hmem := lookupChild_mem hl
          have hwt : child.wt < (Classifier.node d nin nout sk ch cls).wt := by
            have := wt_le_of_mem hmem
            simp only [Classifier.wt]
            omega
          dsimp only
          have hite1 : (if (true : Bool) = true then child.cls else child.cls.reverse) =
              child.cls := by simp
          have hite2 : (if (false : Bool) = true then child.cls else child.cls.reverse) =
              child.cls.reverse := by simp
          rw [hite1, hite2, List.reverse_append, ih child hwt (hch _ hmem)]
          rcases hanti _ hmem with hcls | hbe
          · rw [hcls]
            simp
          · rw [belowEmpty_getItems true child hbe]
            simp

/-- C1 fails on the code: with a value-bearing node above another, the
reversed traversal is *not* the reverse of the forward traversal — both
directions visit parents before children (pre-order), so `get([], true)`
yields `[10, 20]` while `get([], false)` yields `[10, 20]`, not `[20, 10]`. -/
theorem claim_C1_counterexample :
    getItems false [] cexC1 ≠ (getItems true [] cexC1).reverse := by
  decide

/-- C1 (amended).  For a classifier whose value-bearing nodes form an
antichain (no value-bearing node strictly above another, e.g. all values at
one depth), `get([], false)` equals the reverse of `get([], true)`. -/
theorem claim_C1_reverse_antichain {κ β : Type} [DecidableEq κ]
    (c : Classifier κ β) (h : MirrorOK c) :
    getItems false [] c = (getItems true [] c).reverse :=
  mirrorOK_get_reverse c h

/-- Witness for the amended C1 at a concrete input. -/
theorem claim_C1_witness :
    MirrorOK wtreeC1 ∧ getItems false [] wtreeC1 = (getItems true [] wtreeC1).reverse := by
  have hm : MirrorOK wtreeC1 := by
    refine .node _ _ _ _ _ _ ?_ ?_
    · intro p hp
      rcases List.mem_cons.mp hp with rfl | hp2
      · exact Or.inr (.node _ _ _ _ _ _ (by simp) (by simp))
      · rcases List.mem_singleton.mp hp2 with rfl
        exact Or.inr (.node _ _ _ _ _ _ (by simp) (by simp))
    · intro p hp
      rcases List.mem_cons.mp hp with rfl | hp2
      · exact .node _ _ _ _ _ _ (by simp) (by simp)
      · rcases List.mem_singleton.mp hp2 with rfl
        exact .node _ _ _ _ _ _ (by simp) (by simp)
  exact ⟨hm, claim_C1_reverse_antichain wtreeC1 hm⟩

/-! ## Rejected class insertions still count (claim C9 machinery) -/

/-- With a positive count over an existing path, `add` reaches exactly the
walk's terminal node: the class-insertion result is computed there, its
`nin` grows by `x`, and its class and depth follow `clsAdd`. -/
theorem addAux_terminal {κ β : Type} [DecidableEq κ] (s : Sorter κ β) (item : β)
    (x : Int) (hx : 0 < x) :
    ∀ (keys : List κ) (c t : Classifier κ β) (got : Bool) (c' : Classifier κ β) (pr : Bool),
      Nonneg c → withNode c keys = some t →
      addAux s c keys item x = some (got, c', pr) →
      got = (clsAdd (s t.depth).2 t.cls item).1 ∧
      ∃ t', withNode c' keys = some t' ∧ t'.nin = t.nin + x ∧ t'.nout = t.nout ∧
        t'.cls = (clsAdd (s t.depth).2 t.cls item).2 ∧ t'.depth = t.depth := by
  intro keys
  induction keys with
  | nil =>
    intro c t got c' pr _ hw h
    cases c with
    | node d nin nout sk ch cls =>
      simp only [withNode, Option.some.injEq] at hw
      subst hw
      simp only [addAux, Option.some.injEq, Prod.mk.injEq] at h
      obtain ⟨h1, h2, -⟩ := h
      subst h2
      refine ⟨h1.symm, _, rfl, ?_, ?_, ?_, ?_⟩ <;>
        simp [Classifier.nin, Classifier.nout, Classifier.cls, Classifier.depth]
  | cons k ks ih =>
    intro c t got c' pr hnn hw h
    cases c with
    | node d nin nout sk ch cls =>
      cases hnn with
      | node _ _ _ _ _ _ hnin hnout hch =>
        simp only [withNode, Classifier.keyToChild] at hw
        cases hl : lookupChild ch k with
        | none => rw [hl] at hw; cases hw
        | some child =>
          rw [hl] at hw
          simp only at hw
          simp only [addAux, hl] at h
          cases hr : addAux s child ks item x with
          | none => rw [hr] at h; cases h
          | some rr =>
            obtain ⟨got2, child', pr2⟩ := rr
            rw [hr] at h
            dsimp only at h
            have hnnchild := hch _ (lookupChild_mem hl)
            have hpr2 : pr2 = false :=
              (addAux_pos_has s item x hx ks child (got2, child', pr2) hnnchild hr).1
            subst hpr2
            simp only [Bool.false_eq_true, if_false, Option.some.injEq, Prod.mk.injEq] at h
            obtain ⟨hg2, h2, -⟩ := h
            subst h2
            obtain ⟨hgot, t', hwt', ht'⟩ := ih child t got2 child' false hnnchild hw hr
            subst hg2
            refine ⟨hgot, t', ?_, ht'⟩
            simp only [withNode, Classifier.keyToChild, lookupChild_replace_self hl]
            exact hwt'

/-- Counterexample for C9 as stated: the premise holds (the class already
contains an equal item, the add returns `false`, counters are still
incremented by the count) yet `n()` does **not** strictly exceed the
number of stored values. -/
theorem claim_C9_counterexample :
    (Classifier.add sorterAsc c9tree [7] 2 1).1 = false ∧
    (withNode (Classifier.add sorterAsc c9tree [7] 2 1).2 [7]).map Classifier.nin =
      some 2 ∧
    (withNode (Classifier.add sorterAsc c9tree [7] 2 1).2 [7]).map Classifier.cls =
      some [1, 2, 3] ∧
    ¬((withNode (Classifier.add sorterAsc c9tree [7] 2 1).2 [7]).map
        (fun t => decide ((t.cls.length : Int) < t.nval)) = some true) := by
  decide

/-- C9 (amended).  When `add` with positive count reaches a terminal node
whose sorted equivalence class already holds an equivalent item, the
insertion is rejected (`add` returns `false`) while `nin` of the terminal
node and the subtree count of the root still grow by the count; hence the
occurrence count strictly exceeds the class size *provided* it was at
least the class size before the add (as after add-only histories). -/
theorem claim_C9_rejected_add_still_counts {κ β : Type} [DecidableEq κ]
    (s : Sorter κ β) (c t : Classifier κ β) (keys : List κ) (item : β) (x : Int)
    (vc : β → β → Int) (hx : 0 < x) (hnn : Nonneg c)
    (hw : withNode c keys = some t)
    (hpol : (s t.depth).2 = VPol.sorted vc) (htp : IsTotalPre vc)
    (hsorted : t.cls.Pairwise (fun a b => vc a b < 0))
    (hex : ∃ y ∈ t.cls, vc y item = 0) :
    (Classifier.add s c keys item x).1 = false ∧
    (Classifier.add s c keys item x).2.nval = c.nval + x ∧
    ∃ t', withNode (Classifier.add s c keys item x).2 keys = some t' ∧
      t'.nin = t.nin + x ∧ t'.nout = t.nout ∧ t'.cls = t.cls ∧
      ((t.cls.length : Int) ≤ t.nval → (t'.cls.length : Int) < t'.nval) := by
  have hcls : clsAdd (s t.depth).2 t.cls item = (false, t.cls) := by
    rw [hpol]
    simp only [clsAdd]
    exact (saAdd_correct htp item hsorted).1 hex
  cases hr : addAux s c keys item x with
  | none => exact absurd hr (addAux_pos_isSome s item x hx keys c)
  | some r =>
    obtain ⟨got, c', pr⟩ := r
    obtain ⟨hgot, t', hwt', hnin', hnout', hcls', hdep'⟩ :=
      addAux_terminal s item x hx keys c t got c' pr hnn hw hr
    have hdelta := addAux_delta s item x keys c got c' pr hr
    refine ⟨?_, ?_, t', ?_, hnin', hnout', ?_, ?_⟩
    · simp only [Classifier.add, hr]
      rw [hgot, hcls]
    · simp only [Classifier.add, hr]
      exact hdelta.1
    · simp only [Classifier.add, hr]
      exact hwt'
    · rw [hcls', hcls]
    · intro hle
      have : t'.nval = t.nval + x := by
        simp only [Classifier.nval]
        omega
      rw [hcls', hcls]
      simp only [Classifier.nval] at *
      omega

/-- Witness for the amended C9 at a concrete input: re-adding `5` is
rejected but still counted. -/
theorem claim_C9_witness :
    (0 : Int) < 1 ∧ Nonneg w9tree ∧
    withNode w9tree [7] = some (.node 1 1 0 [] [] [5]) ∧
    (sorterAsc 1).2 = VPol.sorted ascInt ∧
    (Classifier.add sorterAsc w9tree [7] 5 1).1 = false ∧
    (Classifier.add sorterAsc w9tree [7] 5 1).2.nval = w9tree.nval + 1 := by
  have hnn : Nonneg w9tree := by
    refine .node _ _ _ _ _ _ (by decide) (by decide) ?_
    intro p hp
    rcases List.mem_singleton.mp hp with rfl
    exact .node _ _ _ _ _ _ (by decide) (by decide) (by simp)
  have h := claim_C9_rejected_add_still_counts sorterAsc w9tree (.node 1 1 0 [] [] [5])
    [7] 5 1 ascInt (by decide) hnn rfl rfl ascInt_total_pre (by decide) (by decide)
  exact ⟨by decide, hnn, rfl, rfl, h.1, h.2.1⟩

/-! ## `clear` breaks the parent's counter sum (claim C10 machinery) -/

/-- The counter invariant transports along a walk. -/
theorem goodCounts_withNode {κ β : Type} [DecidableEq κ] :
    ∀ (keys : List κ) (c t : Classifier κ β), GoodCounts c → withNode c keys = some t →
      GoodCounts t := by
  intro keys
  induction keys with
  | nil =>
    intro c t hg hw
    simp only [withNode, Option.some.injEq] at hw
    exact hw ▸ hg
  | cons k ks ih =>
    intro c t hg hw
    cases c with
    | node d nin nout sk ch cls =>
      cases hg with
      | node _ _ _ _ _ _ hout hch =>
        simp only [withNode, Classifier.keyToChild] at hw
        cases hl : lookupChild ch k with
        | none => rw [hl] at hw; cases hw
        | some child =>
          rw [hl] at hw
          exact ih child t (hch _ (lookupChild_mem hl)) hw

/-- Non-negativity transports along a walk. -/
theorem nonneg_withNode {κ β : Type} [DecidableEq κ] :
    ∀ (keys : List κ) (c t : Classifier κ β), Nonneg c → withNode c keys = some t →
      Nonneg t := by
  intro keys
  induction keys with
  | nil =>
    intro c t hn hw
    simp only [withNode, Option.some.injEq] at hw
    exact hw ▸ hn
  | cons k ks ih =>
    intro c t hn hw
    cases c with
    | node d nin nout sk ch cls =>
      cases hn with
      | node _ _ _ _ _ _ hnin hnout hch =>
        simp only [withNode, Classifier.keyToChild] at hw
        cases hl : lookupChild ch k with
        | none => rw [hl] at hw; cases hw
        | some child =>
          rw [hl] at hw
          exact ih child t (hch _ (lookupChild_mem hl)) hw

/-- `SortedArray.remove` on a sorted list with an equality-reflecting
comparator removes the sole occurrence: the removed key is absent
afterwards. -/
theorem saRemove_not_mem {β : Type} {comparator : β → β → Int} (tp : IsTotalPre comparator)
    (hrefl : ∀ a b, comparator a b = 0 → a = b) {l : List β}
    (hs : l.Pairwise (fun a b => comparator a b < 0)) {k : β} (hk : k ∈ l) :
    k ∉ (saRemove comparator l k).2 := by
  have hp := List.pairwise_iff_getElem.mp hs
  cases hls : logSearch k l comparator 0 l.length with
  | mk index r =>
    cases r with
    | none =>
      obtain ⟨h1, h2, h3, h4⟩ := logSearchGo_none_bounds tp hs _ 0 l.length index
        (by omega) le_rfl (by omega) hls
      obtain ⟨j, hj, hget⟩ := List.mem_iff_getElem.mp hk
      have hkk : comparator k k = 0 := tp_refl_zero tp k
      rcases Nat.lt_or_ge j index with hcase | hcase
      · have := h3 j hj (by omega) hcase
        rw [hget] at this
        omega
      · have := h4 j hj hcase hj
        rw [hget] at this
        omega
    | some y =>
      obtain ⟨hlen, hget, hcmp⟩ := logSearchGo_found k l comparator _ _ _ _ _ hls
      have hyk : y = k := hrefl _ _ hcmp
      have hgetk : l[index] = k := by rw [hget, hyk]
      have hres : (saRemove comparator l k).2 = l.eraseIdx index := by
        simp [saRemove, hls]
      rw [hres, List.eraseIdx_eq_take_drop_succ]
      intro hmem
      rcases List.mem_append.mp hmem with hmem | hmem
      · obtain ⟨j, hj, hj2⟩ := List.mem_iff_getElem.mp hmem
        have hjlt : j < index := by
          have := hj
          simp only [List.length_take] at this
          omega
        have hjlen : j < l.length := by
          have := hj
          simp only [List.length_take] at this
          omega
        have heq : (l.take index)[j] = l[j] := List.getElem_take ..
        rw [heq] at hj2
        have := hp j index hjlen hlen hjlt
        rw [hj2, hgetk] at this
        have := tp_refl_zero tp k
        omega
      · obtain ⟨j, hj, hj2⟩ := List.mem_iff_getElem.mp hmem
        have hjlen : index + 1 + j < l.length := by
          have := hj
          simp only [List.length_drop] at this
          omega
        have heq : (l.drop (index + 1))[j] = l[index + 1 + j] := List.getElem_drop ..
        rw [heq] at hj2
        have := hp index (index + 1 + j) hlen hjlen (by omega)
        rw [hj2, hgetk] at this
        have := tp_refl_zero tp k
        omega

theorem ascInt_reflect : ∀ a b : Int, ascInt a b = 0 → a = b := by
  intro a b h
  simp only [ascInt] at h
  omega

/-- `clear()` on the child reached by `keys ++ [k]`: the cleared node is
detached from its parent, the prune chain stops there (the parent keeps a
positive `nout`), and no counter of any node on the walk changes. -/
theorem clearAux_detach {κ β : Type} [DecidableEq κ] (s : Sorter κ β) (k : κ)
    (child : Classifier κ β) :
    ∀ (keys : List κ) (c p : Classifier κ β),
      GoodCounts c → Nonneg c → withNode c keys = some p →
      lookupChild p.keyToChild k = some child → 0 < child.nval →
      ∃ c', clearAux s c (keys ++ [k]) = some (c', false) ∧
        withNode c' keys = some (Classifier.node p.depth p.nin p.nout
          ((saRemove (s p.depth).1 p.sortedKeys k).2) (eraseChild p.keyToChild k) p.cls) ∧
        (∀ ks1 ks2, keys = ks1 ++ ks2 →
          ∃ a a', withNode c ks1 = some a ∧ withNode c' ks1 = some a' ∧
            a'.nin = a.nin ∧ a'.nout = a.nout) := by
  intro keys
  induction keys with
  | nil =>
    intro c p hg hn hw hl hpos
    simp only [withNode, Option.some.injEq] at hw
    subst hw
    cases c with
    | node d nin nout sk ch cls =>
      cases hg with
      | node _ _ _ _ _ _ hout hgch =>
        cases hn with
        | node _ _ _ _ _ _ hnin hnout hnch =>
          simp only [Classifier.keyToChild] at hl
          have hnoutpos : 0 < nout := by
            have hle : child.nval ≤ sumN ch :=
              nval_le_sumN hl (fun q hq => (hnch q hq).nval_nonneg)
            omega
          refine ⟨Classifier.node d nin nout ((saRemove (s d).1 sk k).2)
            (eraseChild ch k) cls, ?_, ?_, ?_⟩
          · simp only [List.nil_append, clearAux, Classifier.keyToChild, hl]
            cases child with
            | node dc ninc noutc skc chc clsc =>
              simp only [clearAux, if_true]
              simp [decide_eq_false_iff_not]
              omega
          · simp only [withNode, Classifier.depth, Classifier.nin, Classifier.nout,
              Classifier.sortedKeys, Classifier.keyToChild, Classifier.cls]
          · intro ks1 ks2 hks
            have h1 : ks1 = [] := by
              cases ks1 with
              | nil => rfl
              | cons a as => cases hks
            subst h1
            exact ⟨_, _, rfl, rfl, by simp [Classifier.nin], by simp [Classifier.nout]⟩
  | cons k0 ks ih =>
    intro c p hg hn hw hl hpos
    cases c with
    | node d nin nout sk ch cls =>
      cases hg with
      | node _ _ _ _ _ _ hout hgch =>
        cases hn with
        | node _ _ _ _ _ _ hnin hnout hnch =>
          simp only [withNode, Classifier.keyToChild] at hw
          cases hl0 : lookupChild ch k0 with
          | none => rw [hl0] at hw; cases hw
          | some c0 =>
            rw [hl0] at hw
            simp only at hw
            have hmem0 := lookupChild_mem hl0
            obtain ⟨c0', hca, hwc0', hanc⟩ := ih c0 p (hgch _ hmem0) (hnch _ hmem0)
              hw hl hpos
            refine ⟨Classifier.node d nin nout sk (replaceChild ch k0 c0') cls, ?_, ?_, ?_⟩
            · simp only [List.cons_append, clearAux, Classifier.keyToChild, hl0,
                List.append_eq]
              rw [hca]
              simp
            · simp only [withNode, Classifier.keyToChild, lookupChild_replace_self hl0]
              exact hwc0'
            · intro ks1 ks2 hks
              cases ks1 with
              | nil =>
                refine ⟨_, _, rfl, rfl, ?_, ?_⟩ <;> simp [Classifier.nin, Classifier.nout]
              | cons a as =>
                simp only [List.cons_append, List.cons.injEq] at hks
                obtain ⟨ha, hks'⟩ := hks
                subst ha
                obtain ⟨a1, a1', hwa, hwa', hna, hnoa⟩ := hanc as ks2 hks'
                refine ⟨a1, a1', ?_, ?_, hna, hnoa⟩
                · simp only [withNode, Classifier.keyToChild, hl0]
                  exact hwa
                · simp only [withNode, Classifier.keyToChild,
                    lookupChild_replace_self hl0]
                  exact hwa'

/-- C10.  `clear()` on a non-root node with `n() > 0` zeroes and empties
that node and detaches it from its parent's `keyToChild` and `sortedKeys`,
while every node on the walk from the root to the parent keeps its `nin`
and `nout`; consequently the parent's `nout` no longer equals the sum of
`n()` over its remaining children. -/
theorem claim_C10_clear_breaks_parent_sum {κ β : Type} [DecidableEq κ]
    (s : Sorter κ β) (c p child : Classifier κ β) (keys : List κ) (k : κ)
    (hg : GoodCounts c) (hn : Nonneg c)
    (hw : withNode c keys = some p)
    (hl : lookupChild p.keyToChild k = some child) (hpos : 0 < child.nval)
    (hnd : (p.keyToChild.map Prod.fst).Nodup)
    (htp : IsTotalPre (s p.depth).1)
    (hrefl : ∀ a b, (s p.depth).1 a b = 0 → a = b)
    (hsk : p.sortedKeys.Pairwise (fun a b => (s p.depth).1 a b < 0))
    (hkmem : k ∈ p.sortedKeys) :
    ∃ p', withNode (clearAt s c (keys ++ [k])) keys = some p' ∧
      p'.nin = p.nin ∧ p'.nout = p.nout ∧
      lookupChild p'.keyToChild k = none ∧
      k ∉ p'.sortedKeys ∧
      p'.nout ≠ sumN p'.keyToChild ∧
      (∀ ks1 ks2, keys = ks1 ++ ks2 →
        ∃ a a', withNode c ks1 = some a ∧
          withNode (clearAt s c (keys ++ [k])) ks1 = some a' ∧
          a'.nin = a.nin ∧ a'.nout = a.nout) := by
  obtain ⟨c', hca, hwc', hanc⟩ := clearAux_detach s k child keys c p hg hn hw hl hpos
  have hclear : clearAt s c (keys ++ [k]) = c' := by
    simp [clearAt, hca]
  have hgp : GoodCounts p := goodCounts_withNode keys c p hg hw
  have hnp : Nonneg p := nonneg_withNode keys c p hn hw
  have hsum : p.nout = sumN p.keyToChild := by
    cases hgp with
    | node d nin nout sk ch cls hout _ =>
      simpa [Classifier.nout, Classifier.keyToChild] using hout
  refine ⟨Classifier.node p.depth p.nin p.nout ((saRemove (s p.depth).1 p.sortedKeys k).2)
    (eraseChild p.keyToChild k) p.cls, hclear ▸ hwc', rfl, rfl, ?_, ?_, ?_, ?_⟩
  · exact lookupChild_erase_self hnd
  · exact saRemove_not_mem htp hrefl hsk hkmem
  · show p.nout ≠ sumN (eraseChild p.keyToChild k)
    rw [hsum, sumN_eraseChild hl]
    omega
  · intro ks1 ks2 hks
    rw [hclear]
    exact hanc ks1 ks2 hks

/-- Witness for C10 at a concrete input: clearing the child under key `5`
(two occurrences) leaves the root's `nout = 3` while its remaining
children sum to `1`. -/
theorem claim_C10_witness :
    GoodCounts w10tree ∧ Nonneg w10tree ∧
    (clearAt sorterIns w10tree [5]).nout = 3 ∧
    lookupChild (clearAt sorterIns w10tree [5]).keyToChild 5 = none ∧
    (clearAt sorterIns w10tree [5]).nout ≠ sumN (clearAt sorterIns w10tree [5]).keyToChild := by
  have hg : GoodCounts w10tree := by
    refine .node _ _ _ _ _ _ (by decide) ?_
    intro p hp
    rcases List.mem_cons.mp hp with rfl | hp2
    · exact .node _ _ _ _ _ _ (by decide) (by simp)
    · rcases List.mem_singleton.mp hp2 with rfl
      exact .node _ _ _ _ _ _ (by decide) (by simp)
  have hn : Nonneg w10tree := by
    refine .node _ _ _ _ _ _ (by decide) (by decide) ?_
    intro p hp
    rcases List.mem_cons.mp hp with rfl | hp2
    · exact .node _ _ _ _ _ _ (by decide) (by decide) (by simp)
    · rcases List.mem_singleton.mp hp2 with rfl
      exact .node _ _ _ _ _ _ (by decide) (by decide) (by simp)
  obtain ⟨p', hwp', hnin, hnout, hlk, hmem, hne, -⟩ :=
    claim_C10_clear_breaks_parent_sum sorterIns w10tree w10tree
      (.node 1 2 0 [] [] [10]) [] 5 hg hn rfl rfl (by decide) (by decide)
      ascInt_total_pre ascInt_reflect (by decide) (by decide)
  have hp' : p' = clearAt sorterIns w10tree [5] := by
    simpa [withNode] using hwp'.symm
  subst hp'
  refine ⟨hg, hn, ?_, hlk, hne⟩
  rw [hnout]
  decide

/-- A full drain of the path below `keys ++ [k]` prunes the terminal node
(when it has no occupied descendants) out of the parent reached by `keys`,
provided that parent still has other occupants; the prune chain stops there
and the walk above is preserved with replaced children only. -/
theorem removeAux_detach {κ β : Type} [DecidableEq κ] (s : Sorter κ β) (k : κ)
    (child : Classifier κ β) :
    ∀ (keys : List κ) (c p : Classifier κ β),
      GoodCounts c → Nonneg c → withNode c keys = some p →
      lookupChild p.keyToChild k = some child → child.nout = 0 →
      child.nval < p.nval →
      ∃ c', removeAux s c (keys ++ [k]) none = some (c', false, child.nin) ∧
        withNode c' keys = some (Classifier.node p.depth p.nin (p.nout - child.nin)
          ((saRemove (s p.depth).1 p.sortedKeys k).2) (eraseChild p.keyToChild k) p.cls) := by
  intro keys
  induction keys with
  | nil =>
    intro c p hg hn hw hl hnoutc hlt
    simp only [withNode, Option.some.injEq] at hw
    subst hw
    cases c with
    | node d nin nout sk ch cls =>
      simp only [Classifier.keyToChild] at hl
      simp only [Classifier.nval, Classifier.nin, Classifier.nout] at hlt
      cases child with
      | node dc ninc noutc skc chc clsc =>
        simp only [Classifier.nout] at hnoutc
        subst hnoutc
        simp only [Classifier.nval, Classifier.nin, Classifier.nout] at hlt
        refine ⟨Classifier.node d nin (nout - ninc) ((saRemove (s d).1 sk k).2)
          (eraseChild ch k) cls, ?_, ?_⟩
        · simp only [List.nil_append, removeAux, Classifier.keyToChild, hl]
          have hz : ninc - ninc = (0 : Int) := by omega
          rw [hz]
          simp [Classifier.nin, decide_eq_false_iff_not]
          omega
        · simp only [withNode, Classifier.depth, Classifier.nin, Classifier.nout,
            Classifier.sortedKeys, Classifier.keyToChild, Classifier.cls]
  | cons k0 ks ih =>
    intro c p hg hn hw hl hnoutc hlt
    cases c with
    | node d nin nout sk ch cls =>
      cases hg with
      | node _ _ _ _ _ _ hout hgch =>
        cases hn with
        | node _ _ _ _ _ _ hnin hnout hnch =>
          simp only [withNode, Classifier.keyToChild] at hw
          cases hl0 : lookupChild ch k0 with
          | none => rw [hl0] at hw; cases hw
          | some c0 =>
            rw [hl0] at hw
            simp only at hw
            have hmem0 := lookupChild_mem hl0
            obtain ⟨c0', hca, hwc0'⟩ := ih c0 p (hgch _ hmem0) (hnch _ hmem0) hw hl
              hnoutc hlt
            refine ⟨Classifier.node d nin (nout - child.nin) sk
              (replaceChild ch k0 c0') cls, ?_, ?_⟩
            · simp only [List.cons_append, removeAux, Classifier.keyToChild, hl0,
                List.append_eq]
              rw [hca]
              simp
            · simp only [withNode, Classifier.keyToChild, lookupChild_replace_self hl0]
              exact hwc0'

/-- C3.  After a `remove`, pruning detaches the empty nodes of the removed
path bottom-up, absent afterwards from both the former parent's
`keyToChild` and its `sortedKeys`, with the prune chain stopping at the
first ancestor that still has occupants; consequently in a sane tree no
attached node other than the root ever has `nin = 0` and `nout = 0`. -/
theorem claim_C3_prune_no_empty {κ β : Type} [DecidableEq κ] (s : Sorter κ β)
    (c : Classifier κ β) (keys : List κ) (x : Option Int)
    (hg : GoodCounts c) (hn : Nonneg c) (he : NoEmpty c) :
    NoEmpty (Classifier.remove s c keys x).2 ∧
    (∀ (p child : Classifier κ β) (ks : List κ) (k : κ),
      keys = ks ++ [k] → x = none →
      withNode c ks = some p → lookupChild p.keyToChild k = some child →
      child.nout = 0 → child.nval < p.nval →
      (p.keyToChild.map Prod.fst).Nodup →
      IsTotalPre (s p.depth).1 → (∀ a b, (s p.depth).1 a b = 0 → a = b) →
      p.sortedKeys.Pairwise (fun a b => (s p.depth).1 a b < 0) → k ∈ p.sortedKeys →
      ∃ p', withNode (Classifier.remove s c keys x).2 ks = some p' ∧
        lookupChild p'.keyToChild k = none ∧ k ∉ p'.sortedKeys) := by
  constructor
  · cases hr : removeAux s c keys x with
    | none => simpa [Classifier.remove, hr] using he
    | some r =>
      obtain ⟨c', pr, dec⟩ := r
      simpa [Classifier.remove, hr] using
        (removeAux_preserves s x keys c c' pr dec hg hn he hr).2.1
  · intro p child ks k hkeys hx hw hl hnoutc hlt hnd htp hrefl hsk hkmem
    subst hkeys
    subst hx
    obtain ⟨c', hca, hwc'⟩ := removeAux_detach s k child ks c p hg hn hw hl hnoutc hlt
    have hrem : (Classifier.remove s c (ks ++ [k]) none).2 = c' := by
      simp [Classifier.remove, hca]
    rw [hrem]
    refine ⟨_, hwc', ?_, ?_⟩
    · exact lookupChild_erase_self hnd
    · exact saRemove_not_mem htp hrefl hsk hkmem

/-- Witness for C3 at a concrete input: fully draining the path `[5]` of a
sane two-child tree leaves no empty attached node, and the drained child is
gone from both the parent's key map and its sorted key list. -/
theorem claim_C3_witness :
    GoodCounts w10tree ∧ Nonneg w10tree ∧ NoEmpty w10tree ∧
    NoEmpty (Classifier.remove sorterIns w10tree [5] none).2 ∧
    (∃ p', withNode (Classifier.remove sorterIns w10tree [5] none).2 [] = some p' ∧
      lookupChild p'.keyToChild 5 = none ∧ (5 : Int) ∉ p'.sortedKeys) := by
  have hg : GoodCounts w10tree := by
    refine .node _ _ _ _ _ _ (by decide) ?_
    intro p hp
    rcases List.mem_cons.mp hp with rfl | hp2
    · exact .node _ _ _ _ _ _ (by decide) (by simp)
    · rcases List.mem_singleton.mp hp2 with rfl
      exact .node _ _ _ _ _ _ (by decide) (by simp)
  have hn : Nonneg w10tree := by
    refine .node _ _ _ _ _ _ (by decide) (by decide) ?_
    intro p hp
    rcases List.mem_cons.mp hp with rfl | hp2
    · exact .node _ _ _ _ _ _ (by decide) (by decide) (by simp)
    · rcases List.mem_singleton.mp hp2 with rfl
      exact .node _ _ _ _ _ _ (by decide) (by decide) (by simp)
  have he : NoEmpty w10tree := by
    refine .node _ _ _ _ _ _ ?_ ?_
    · intro p hp
      rcases List.mem_cons.mp hp with rfl | hp2
      · decide
      · rcases List.mem_singleton.mp hp2 with rfl
        decide
    · intro p hp
      rcases List.mem_cons.mp hp with rfl | hp2
      · exact .node _ _ _ _ _ _ (by simp) (by simp)
      · rcases List.mem_singleton.mp hp2 with rfl
        exact .node _ _ _ _ _ _ (by simp) (by simp)
  have h := claim_C3_prune_no_empty sorterIns w10tree [5] none hg hn he
  refine ⟨hg, hn, he, h.1, ?_⟩
  exact h.2 w10tree (.node 1 2 0 [] [] [10]) [] 5 rfl rfl rfl rfl (by decide) (by decide)
    (by decide) ascInt_total_pre ascInt_reflect (by decide) (by decide)
